import Mathlib

/-!
Verification development for the PDDL game engine and reachability checker of
this repository (`backend/app/services/game_service.py` and
`backend/app/services/validation_service.py`).

World states are modelled as `Finset String` (Python `set`/`frozenset` of fact
strings; both are finite sets of strings, mutability aside).  Python `dict`s
whose insertion order matters (action tables, bindings, object registries) are
modelled as association lists in insertion order.  String algorithms
(`str.strip`, the regex substitutions in `_ground_predicate`, the character
scanner of `_parse_condition`/`_parse_effect`) are modelled over character
lists.  The regex-based extraction of action blocks from raw domain/problem
text is not re-modelled: theorems quantify over the parsed representation
(`PDDLParser` below), i.e. over every domain/problem pair accepted by the
parser.
-/

/-- Python-style whitespace test: the ASCII characters matched by `str.strip()`
and by the regex class `\s`. -/
def isPySpace (c : Char) : Bool :=
  c = ' ' || c = '\t' || c = '\n' || c = '\r' || c = '\x0b' || c = '\x0c'

/-- Word-character test for the regex word boundary `\b` (ASCII `\w`). -/
def isWordChar (c : Char) : Bool :=
  c.isAlphanum || c = '_'

/-- Python `str.strip()` on a character list. -/
def pyStripChars (cs : List Char) : List Char :=
  ((cs.dropWhile isPySpace).reverse.dropWhile isPySpace).reverse

/-- Python `str.strip()`. -/
def pyStrip (s : String) : String :=
  ⟨pyStripChars s.data⟩

/-- True when the next character (if any) is not a word character: the regex
word boundary `\b` placed after a word character. -/
def wordBoundary : List Char → Bool
  | [] => true
  | d :: _ => !isWordChar d

/-- One pass of `re.sub(r'\?var\b', obj, text)` over a character list:
replace every occurrence of `'?' ++ var` that is followed by a word boundary.
The `Nat` argument is a fuel bound making the recursion structural; it is
seeded with the length of the text, which always suffices because every step
consumes at least one character (when fuel reaches 0 the remaining text is
provably empty). -/
def substVarAux (var obj : List Char) : Nat → List Char → List Char
  | 0, cs => cs
  | _ + 1, [] => []
  | fuel + 1, c :: rest =>
    if c = '?' && var.isPrefixOf rest && wordBoundary (rest.drop var.length) then
      obj ++ substVarAux var obj fuel (rest.drop var.length)
    else
      c :: substVarAux var obj fuel rest

/-- A variable binding: Python `Dict[str, str]` in insertion order. -/
abbrev Binding := List (String × String)

/-- Update a binding like a Python `dict` assignment: replace the value of an
existing key in place, otherwise append the new key at the end. -/
def bindingUpdate : Binding → String → String → Binding
  | [], k, v => [(k, v)]
  | (k', v') :: rest, k, v =>
    if k' = k then (k, v) :: rest else (k', v') :: bindingUpdate rest k v

/-- `StateEvaluator._ground_predicate`: substitute each bound variable into the
predicate string, one `re.sub` per binding entry in insertion order.  (Variable
names produced by the parameter parser are `\w+` tokens, so the regex
`r'\?' + var + r'\b'` matches the literal text `?var` at a word boundary.) -/
def ground_predicate (predicate : String) (bindings : Binding) : String :=
  bindings.foldl
    (fun grounded vb => ⟨substVarAux vb.1.data vb.2.data grounded.data.length grounded.data⟩)
    predicate

/-- A parsed precondition or goal: `{'positive': [...], 'negative': [...]}`. -/
structure Condition where
  positive : List String
  negative : List String
deriving DecidableEq

/-- A parsed effect: `{'add': [...], 'delete': [...]}`. -/
structure Effect where
  add : List String
  delete : List String
deriving DecidableEq

/-- One parsed action parameter: `{'name': ..., 'type': ...}`. -/
structure Param where
  name : String
  type : String
deriving DecidableEq

/-- One parsed action schema, as stored in `PDDLParser.actions[name]`. -/
structure ActionDef where
  name : String
  parameters : List Param
  precondition : Condition
  effect : Effect
deriving DecidableEq

/-- The parsed representation produced by `PDDLParser`: the action table and
object registry are dicts in insertion order, the initial state is a fact set,
the goal a condition. -/
structure PDDLParser where
  actions : List (String × ActionDef)
  predicates : List String
  objects : List (String × String)
  initial_state : Finset String
  goal : Condition
deriving DecidableEq

/-- Python `self.actions.get(name)` (first occurrence wins, as in a dict). -/
def PDDLParser.getAction (P : PDDLParser) (name : String) : Option ActionDef :=
  (P.actions.find? (fun na => na.1 = name)).map (·.2)

/-- `StateEvaluator.evaluate_precondition`: every grounded positive literal is
in the state, every grounded negative literal is absent. -/
def evaluate_precondition (precondition : Condition) (current_state : Finset String)
    (bindings : Binding) : Bool :=
  precondition.positive.all (fun pred => decide (ground_predicate pred bindings ∈ current_state))
    && precondition.negative.all (fun pred => decide (ground_predicate pred bindings ∉ current_state))

/-- `ActionCalculator._simulate_action_effect`: copy the state, add all
grounded add literals, then discard all grounded delete literals. -/
def simulate_action_effect (action_def : ActionDef) (bindings : Binding)
    (current_state : Finset String) : Finset String :=
  (action_def.effect.delete.map (fun pred => ground_predicate pred bindings)).foldl Finset.erase
    ((action_def.effect.add.map (fun pred => ground_predicate pred bindings)).foldl
      (fun s x => insert x s) current_state)

/-- Candidate objects for one parameter in `_generate_bindings`: objects whose
type tag matches (or all, for the universal tag `object`), falling back to the
whole registry when no object of the exact type exists. -/
def candidateObjects (objects : List (String × String)) (param : Param) : List String :=
  let typed := (objects.filter (fun ot => ot.2 = param.type || param.type = "object")).map (·.1)
  if typed.isEmpty then objects.map (·.1) else typed

/-- `ActionCalculator._generate_bindings`: iteratively extend partial bindings
with every candidate object of each parameter, in declaration order. -/
def generate_bindings (objects : List (String × String)) (parameters : List Param) :
    List Binding :=
  if parameters.isEmpty then [[]]
  else
    parameters.foldl
      (fun bindings_list param =>
        bindings_list.flatMap
          (fun binding => (candidateObjects objects param).map
            (fun obj => bindingUpdate binding param.name obj)))
      [[]]

/-- `ActionCalculator._format_action_description`. -/
def format_action_description (action_name : String) (bindings : Binding) : String :=
  if bindings.isEmpty then action_name
  else action_name ++ " (" ++ String.intercalate ", " (bindings.map (·.2)) ++ ")"

/-- One entry of the list returned by `get_applicable_actions`. -/
structure ApplicableAction where
  action : String
  bindings : Binding
  description : String
deriving DecidableEq

/-- `ActionCalculator.get_applicable_actions`: for every action schema and
every generated binding whose precondition holds, one applicable instance. -/
def get_applicable_actions (P : PDDLParser) (current_state : Finset String) :
    List ApplicableAction :=
  P.actions.flatMap (fun na =>
    ((generate_bindings P.objects na.2.parameters).filter
        (fun bindings => evaluate_precondition na.2.precondition current_state bindings)).map
      (fun bindings =>
        { action := na.1, bindings := bindings,
          description := format_action_description na.1 bindings }))

/-- A canonical, kernel-computable list of a finite set's elements (sorted).
Python's `list(s)` enumerates a set in unspecified order; this fixes the
canonical sorted order.  (Defined by lifting `List.insertionSort` over the
underlying multiset; `Multiset.sort`/`Finset.sort` use `List.mergeSort`, whose
well-founded recursion does not reduce in the kernel.) -/
def finsetAsList {α : Type} [LinearOrder α] (s : Finset α) : List α :=
  Quot.liftOn s.val (List.insertionSort (· ≤ ·)) (fun l₁ l₂ h =>
    List.eq_of_perm_of_sorted
      ((List.perm_insertionSort _ l₁).trans (h.trans (List.perm_insertionSort _ l₂).symm))
      (List.sorted_insertionSort _ l₁) (List.sorted_insertionSort _ l₂))

/-- One entry of `GameState.action_history`. -/
structure HistoryEntry where
  step : Nat
  action : String
  bindings : Binding
deriving DecidableEq

/-- The serialized form produced by `GameState.to_dict` and consumed by
`GameState.from_dict`.  A missing `visited_states` key in the Python dict is
read as `[]` (`data.get('visited_states', [])`), so absence is modelled as the
empty list. -/
structure StateDict where
  facts : List String
  step_count : Nat
  action_history : List HistoryEntry
  visited_states : List (List String)
deriving DecidableEq

/-- `GameState`: current fact set, goal, step counter, history, and the set of
visited state signatures. -/
structure GameState where
  current_facts : Finset String
  goal : Condition
  step_count : Nat
  action_history : List HistoryEntry
  visited_states : Finset (Finset String)
deriving DecidableEq

/-- `GameState.__init__`: copy the initial facts and record their signature as
visited. -/
def GameState.init (initial_state : Finset String) (goal : Condition) : GameState :=
  { current_facts := initial_state, goal := goal, step_count := 0, action_history := [],
    visited_states := {initial_state} }

/-- `GameState.apply_action`: add all grounded add literals, discard all
grounded delete literals, record the new signature as visited, bump the step
counter and append the history entry. -/
def GameState.apply_action (gs : GameState) (action_def : ActionDef) (bindings : Binding) :
    GameState :=
  let afterAdd :=
    (action_def.effect.add.map (fun pred => ground_predicate pred bindings)).foldl
      (fun s x => insert x s) gs.current_facts
  let newFacts :=
    (action_def.effect.delete.map (fun pred => ground_predicate pred bindings)).foldl
      Finset.erase afterAdd
  { gs with
    current_facts := newFacts,
    visited_states := insert newFacts gs.visited_states,
    step_count := gs.step_count + 1,
    action_history := gs.action_history ++
      [{ step := gs.step_count + 1, action := action_def.name, bindings := bindings }] }

/-- `GameState.is_goal_reached`. -/
def GameState.is_goal_reached (gs : GameState) : Bool :=
  gs.goal.positive.all (fun pred => decide (pred ∈ gs.current_facts))
    && gs.goal.negative.all (fun pred => decide (pred ∉ gs.current_facts))

/-- `GameState.to_dict`.  Python serializes `set`s by listing their elements in
unspecified order; the model uses the canonical sorted order, and serializes
the visited set of signatures through its (injective) image under the same
canonical listing. -/
def GameState.to_dict (gs : GameState) : StateDict :=
  { facts := finsetAsList gs.current_facts,
    step_count := gs.step_count,
    action_history := gs.action_history,
    visited_states := finsetAsList (gs.visited_states.image finsetAsList) }

/-- `GameState.from_dict`: rebuild via the constructor, then overwrite step
count, history, and visited signatures; an absent or empty serialized visited
list falls back to the restored current facts as the only visited state. -/
def GameState.from_dict (data : StateDict) (goal : Condition) : GameState :=
  let base := GameState.init data.facts.toFinset goal
  { base with
    step_count := data.step_count,
    action_history := data.action_history,
    visited_states :=
      if data.visited_states.isEmpty then {base.current_facts}
      else (data.visited_states.map List.toFinset).toFinset }

/-- One entry of the list returned by `GameEngine.get_available_actions`.  The
purely presentational fields of the source dict (`id`, `display_text`,
`description`: strings derived from the other two fields) are omitted; no
claim refers to them. -/
structure AnnotatedAction where
  action : String
  bindings : Binding
  revisits_state : Bool
deriving DecidableEq

/-- `GameEngine.get_available_actions`: annotate every applicable action with
whether its simulated successor state was already visited, list the
non-revisiting ones first, and truncate to `max_actions` when over the limit. -/
def get_available_actions (P : PDDLParser) (gs : GameState) (max_actions : Option Nat) :
    List AnnotatedAction :=
  let applicable := get_applicable_actions P gs.current_facts
  if applicable.isEmpty then []
  else
    let pair := applicable.foldl
      (fun (acc : List AnnotatedAction × List AnnotatedAction) action =>
        let simulated :=
          match P.getAction action.action with
          | some action_def => simulate_action_effect action_def action.bindings gs.current_facts
          | none => gs.current_facts
        let revisits := decide (simulated ∈ gs.visited_states)
        let formatted : AnnotatedAction :=
          { action := action.action, bindings := action.bindings, revisits_state := revisits }
        if revisits then (acc.1, acc.2 ++ [formatted]) else (acc.1 ++ [formatted], acc.2))
      ([], [])
    let all_actions := pair.1 ++ pair.2
    match max_actions with
    | some m => if all_actions.length > m then all_actions.take m else all_actions
    | none => all_actions

/-- The two recoverable failures of `GameEngine.execute_action` (raised as
`ValueError` in the source). -/
inductive ExecError where
  | unknownAction (name : String)
  | preconditionNotSatisfied
deriving DecidableEq

/-- The success payload of `GameEngine.execute_action`.  The source adds the
`dead_end` key only when it is true; it is modelled as a `Bool` field that is
`true` exactly in that case. -/
structure ExecResult where
  step : Nat
  state : StateDict
  goal_reached : Bool
  available_actions : List AnnotatedAction
  dead_end : Bool
deriving DecidableEq

/-- `GameEngine.execute_action`.  Both failures are raised before any mutation
of the game state, so the state comes back unchanged alongside the error. -/
def execute_action (P : PDDLParser) (gs : GameState) (action_name : String)
    (bindings : Binding) (max_actions : Option Nat) : GameState × Except ExecError ExecResult :=
  match P.getAction action_name with
  | none => (gs, Except.error (ExecError.unknownAction action_name))
  | some action_def =>
    if evaluate_precondition action_def.precondition gs.current_facts bindings then
      let gs' := gs.apply_action action_def bindings
      let goal_reached := gs'.is_goal_reached
      let available_actions := if goal_reached then [] else get_available_actions P gs' max_actions
      (gs', Except.ok
        { step := gs'.step_count, state := gs'.to_dict, goal_reached := goal_reached,
          available_actions := available_actions,
          dead_end := !goal_reached && available_actions.isEmpty })
    else (gs, Except.error ExecError.preconditionNotSatisfied)

/-- Attempt to match the regex `not\s*\(\s*([^)]+)\)` at the start of the
text.  On success, returns the raw segment between the opening parenthesis and
the first following `)` (the appended value in the source is this segment's
`.strip()`: the greedy `\s*`/backtracking bookkeeping inside the capture is
erased by the final `.strip()`). -/
def tryNotMatch (cs : List Char) : Option (List Char) :=
  if ['n', 'o', 't'].isPrefixOf cs then
    let afterSpaces := (cs.drop 3).dropWhile isPySpace
    match afterSpaces with
    | '(' :: tail =>
      let seg := tail.takeWhile (fun c => c ≠ ')')
      if seg.isEmpty then none
      else if seg.length < tail.length then some seg else none
    | _ => none
  else none

/-- `re.search` for the pattern above: try every start position left to
right. -/
def notSearch : List Char → Option (List Char)
  | [] => none
  | c :: rest =>
    match tryNotMatch (c :: rest) with
    | some seg => some seg
    | none => notSearch rest

/-- Classification of one finalized depth-one group (`pred_str`) into the
positive/negative accumulators, as in the scanner loops of
`_parse_condition`/`_parse_effect`: a group starting with `not` contributes
its regex capture (stripped) to the negative list when the regex matches, and
is dropped otherwise; any other group goes verbatim to the positive list. -/
def classifyGroup (pred_str : String) (acc : List String × List String) :
    List String × List String :=
  if ['n', 'o', 't'].isPrefixOf pred_str.data then
    match notSearch pred_str.data with
    | some seg => (acc.1, acc.2 ++ [(⟨pyStripChars seg⟩ : String)])
    | none => acc
  else (acc.1 ++ [pred_str], acc.2)

/-- The character scanner shared (verbatim, up to dict key names) by
`_parse_condition` and `_parse_effect`: track parenthesis depth, collect the
characters of each group at depth ≥ 1, and finalize a group whenever a `)`
returns the depth to 0 with a nonempty collection. -/
def scanClassify : List Char → Int → List Char → List String × List String →
    List String × List String
  | [], _, _, acc => acc
  | c :: rest, depth, current, acc =>
    if c = '(' then
      if depth + 1 = 1 then scanClassify rest (depth + 1) [] acc
      else scanClassify rest (depth + 1) (current ++ ['(']) acc
    else if c = ')' then
      if depth - 1 = 0 ∧ current ≠ [] then
        scanClassify rest (depth - 1) [] (classifyGroup ⟨pyStripChars current⟩ acc)
      else scanClassify rest (depth - 1) (current ++ [')']) acc
    else
      if depth > 0 then scanClassify rest depth (current ++ [c]) acc
      else scanClassify rest depth current acc

/-- The scan for the parenthesis closing the leading `(and`: walk the whole
string tracking depth and report the index of the first `)` that returns the
depth to 0. -/
def findAndClose : List Char → Nat → Int → Option Nat
  | [], _, _ => none
  | c :: rest, j, depth =>
    if c = '(' then findAndClose rest (j + 1) (depth + 1)
    else if c = ')' then
      if depth - 1 = 0 then some j else findAndClose rest (j + 1) (depth - 1)
    else findAndClose rest (j + 1) depth

/-- The `(and ...)` wrapper handling of `_parse_condition`/`_parse_effect`: if
the (stripped) text starts with the four characters `(and`, replace it by the
stripped slice between the first non-space character after `(and` and the
parenthesis matching the opening one; if no matching parenthesis exists the
text is left unchanged. -/
def stripAndWrapper (cs : List Char) : List Char :=
  if ['(', 'a', 'n', 'd'].isPrefixOf cs then
    let start := 4 + ((cs.drop 4).takeWhile isPySpace).length
    match findAndClose cs 0 0 with
    | some j => pyStripChars ((cs.take j).drop start)
    | none => cs
  else cs

/-- `PDDLParser._parse_condition`. -/
def parse_condition (cond_str : String) : Condition :=
  let pair := scanClassify (stripAndWrapper (pyStripChars cond_str.data)) 0 [] ([], [])
  { positive := pair.1, negative := pair.2 }

/-- `PDDLParser._parse_effect` (the source duplicates the `_parse_condition`
code with `add`/`delete` in place of `positive`/`negative`). -/
def parse_effect (effect_str : String) : Effect :=
  let pair := scanClassify (stripAndWrapper (pyStripChars effect_str.data)) 0 [] ([], [])
  { add := pair.1, delete := pair.2 }

/-- The depth bound of `_check_reachability_internal` (`max_depth = 50`). -/
def bfsMaxDepth : Nat := 50

/-- The explored-state cap of `_check_reachability_internal`
(`max_states = 10000`). -/
def bfsMaxStates : Nat := 10000

/-- The success message `f"Goal reachable in {depth} steps"`. -/
def reachableMsg (depth : Nat) : String :=
  s!"Goal reachable in {depth} steps"

/-- The inconclusive message returned when the explored-state cap is hit. -/
def inconclusiveMsg : String :=
  "Reachability check inconclusive (state space too large) - assuming valid"

/-- The failure message returned when the queue empties. -/
def noSolutionMsg : String :=
  "No reachable solution found: the goal state cannot be reached from the initial state with the available actions"

/-- The goal test performed on each dequeued state of the BFS. -/
def goalSatisfied (goal : Condition) (current : Finset String) : Bool :=
  goal.positive.all (fun p => decide (p ∈ current))
    && goal.negative.all (fun p => decide (p ∉ current))

/-- One iteration of the successor loop of the BFS: look the action up again
in the schema table, simulate its effect, and enqueue the successor (appending
at the back) when its signature is unseen. -/
def bfsStep (P : PDDLParser) (current : Finset String) (depth : Nat)
    (vq : Finset (Finset String) × List (Finset String × Nat)) (act : ApplicableAction) :
    Finset (Finset String) × List (Finset String × Nat) :=
  match P.getAction act.action with
  | none => vq
  | some action_def =>
    let next := simulate_action_effect action_def act.bindings current
    if next ∈ vq.1 then vq else (insert next vq.1, vq.2 ++ [(next, depth + 1)])

/-- The whole successor loop of the BFS over a list of applicable actions. -/
def bfsExpand (P : PDDLParser) (current : Finset String) (depth : Nat)
    (vq : Finset (Finset String) × List (Finset String × Nat))
    (acts : List ApplicableAction) : Finset (Finset String) × List (Finset String × Nat) :=
  acts.foldl (bfsStep P current depth) vq

/-- Total number of generated ground actions of a parsed domain/problem pair;
an upper bound on the length of any applicable-action list, used only for the
termination measure of the BFS. -/
def groundCount (P : PDDLParser) : Nat :=
  (P.actions.map (fun na => (generate_bindings P.objects na.2.parameters).length)).sum

/-- `_check_reachability_internal`, main loop.  A queue of
`(state, depth)` pairs is processed FIFO; before each dequeue the
explored-state cap is checked, then the goal, then the depth bound, and
otherwise every applicable action's simulated successor is enqueued if unseen.
Termination: every iteration pops one entry, and the queue only grows while
the visited set (checked against the cap before expanding) grows in lockstep. -/
def bfs (P : PDDLParser) : List (Finset String × Nat) → Finset (Finset String) → Bool × String
  | [], _ => (false, noSolutionMsg)
  | (current, depth) :: rest, visited =>
    if visited.card > bfsMaxStates then (true, inconclusiveMsg)
    else if goalSatisfied P.goal current then (true, reachableMsg depth)
    else if bfsMaxDepth ≤ depth then bfs P rest visited
    else
      bfs P (bfsExpand P current depth (visited, rest) (get_applicable_actions P current)).2
        (bfsExpand P current depth (visited, rest) (get_applicable_actions P current)).1
termination_by q visited =>
  (groundCount P + 1) * ((bfsMaxStates + 1 + groundCount P) - visited.card) + q.length
decreasing_by
· simp only [List.length_cons]
  omega
· have hcap : visited.card ≤ bfsMaxStates := by omega
  have step_card_len : ∀ (vq : Finset (Finset String) × List (Finset String × Nat))
      (act : ApplicableAction),
      (bfsStep P current depth vq act).1.card + vq.2.length
        = vq.1.card + (bfsStep P current depth vq act).2.length := by
    intro vq act
    unfold bfsStep
    cases P.getAction act.action with
    | none => rfl
    | some action_def =>
      simp only
      split
      · rfl
      · next h =>
        simp [Finset.card_insert_of_not_mem h]
        omega
  have step_card_le : ∀ (vq : Finset (Finset String) × List (Finset String × Nat))
      (act : ApplicableAction),
      (bfsStep P current depth vq act).1.card ≤ vq.1.card + 1 := by
    intro vq act
    unfold bfsStep
    cases P.getAction act.action with
    | none => exact Nat.le_succ _
    | some action_def =>
      simp only
      split
      · exact Nat.le_succ _
      · exact Finset.card_insert_le _ _
  have step_sub : ∀ (vq : Finset (Finset String) × List (Finset String × Nat))
      (act : ApplicableAction), vq.1 ⊆ (bfsStep P current depth vq act).1 := by
    intro vq act
    unfold bfsStep
    cases P.getAction act.action with
    | none => exact Finset.Subset.refl _
    | some action_def =>
      simp only
      split
      · exact Finset.Subset.refl _
      · exact Finset.subset_insert _ _
  have exp_card_len : ∀ (acts : List ApplicableAction)
      (vq : Finset (Finset String) × List (Finset String × Nat)),
      (bfsExpand P current depth vq acts).1.card + vq.2.length
        = vq.1.card + (bfsExpand P current depth vq acts).2.length := by
    intro acts
    induction acts with
    | nil => intro vq; rfl
    | cons a as ih =>
      intro vq
      have ha := step_card_len vq a
      have hb := ih (bfsStep P current depth vq a)
      simp only [bfsExpand, List.foldl_cons] at *
      omega
  have exp_card_le : ∀ (acts : List ApplicableAction)
      (vq : Finset (Finset String) × List (Finset String × Nat)),
      (bfsExpand P current depth vq acts).1.card ≤ vq.1.card + acts.length := by
    intro acts
    induction acts with
    | nil => intro vq; simp [bfsExpand]
    | cons a as ih =>
      intro vq
      have ha := step_card_le vq a
      have hb := ih (bfsStep P current depth vq a)
      simp only [bfsExpand, List.foldl_cons] at *
      simp only [List.length_cons]
      omega
  have exp_sub : ∀ (acts : List ApplicableAction)
      (vq : Finset (Finset String) × List (Finset String × Nat)),
      vq.1 ⊆ (bfsExpand P current depth vq acts).1 := by
    intro acts
    induction acts with
    | nil => intro vq; exact Finset.Subset.refl _
    | cons a as ih =>
      intro vq
      exact (step_sub vq a).trans (ih _)
  have app_le : (get_applicable_actions P current).length ≤ groundCount P := by
    unfold get_applicable_actions groundCount
    have gen : ∀ (l : List (String × ActionDef)),
        (l.flatMap (fun na =>
          ((generate_bindings P.objects na.2.parameters).filter
              (fun bindings => evaluate_precondition na.2.precondition current bindings)).map
            (fun bindings =>
              ({ action := na.1, bindings := bindings,
                 description := format_action_description na.1 bindings } : ApplicableAction)))).length
          ≤ (l.map (fun na => (generate_bindings P.objects na.2.parameters).length)).sum := by
      intro l
      induction l with
      | nil => simp
      | cons a as ih =>
        simp only [List.flatMap_cons, List.length_append, List.map_cons, List.sum_cons,
          List.length_map]
        have := List.length_filter_le
          (fun bindings => evaluate_precondition a.2.precondition current bindings)
          (generate_bindings P.objects a.2.parameters)
        omega
    exact gen P.actions
  have h1 : (bfsExpand P current depth (visited, rest) (get_applicable_actions P current)).1.card
        + rest.length
      = visited.card
        + (bfsExpand P current depth (visited, rest) (get_applicable_actions P current)).2.length :=
    exp_card_len (get_applicable_actions P current) (visited, rest)
  have h2 : (bfsExpand P current depth (visited, rest) (get_applicable_actions P current)).1.card
      ≤ visited.card + (get_applicable_actions P current).length :=
    exp_card_le (get_applicable_actions P current) (visited, rest)
  have h4 : visited.card
      ≤ (bfsExpand P current depth (visited, rest) (get_applicable_actions P current)).1.card :=
    Finset.card_le_card (exp_sub (get_applicable_actions P current) (visited, rest))
  set A := groundCount P with hA
  set B := bfsMaxStates + 1 + A with hB
  set r := bfsExpand P current depth (visited, rest) (get_applicable_actions P current) with hr
  simp only [List.length_cons]
  have hc' : r.1.card ≤ B := by omega
  have hc : visited.card ≤ B := by omega
  have hsplit : B - visited.card = (B - r.1.card) + (r.1.card - visited.card) := by omega
  have hmul : (A + 1) * (B - visited.card)
      = (A + 1) * (B - r.1.card) + (A + 1) * (r.1.card - visited.card) := by
    rw [hsplit, Nat.mul_add]
  have hge : r.1.card - visited.card ≤ (A + 1) * (r.1.card - visited.card) :=
    Nat.le_mul_of_pos_left _ (Nat.succ_pos A)
  omega

/-- `PDDLValidationService._check_reachability_internal`: seed the BFS with the
initial state at depth 0 and its signature as the only visited one. -/
def check_reachability_internal (P : PDDLParser) : Bool × String :=
  bfs P [(P.initial_state, 0)] {P.initial_state}

/-- One ground step of the state graph explored by the reachability BFS: some
schema looked up by name, some enumerated binding whose precondition holds,
leading to the simulated successor state.  Used to state C1's notion of a
solution: a sequence of applicable ground actions. -/
def SStep (P : PDDLParser) (s s' : Finset String) : Prop :=
  ∃ name action_def bindings,
    P.getAction name = some action_def ∧
    bindings ∈ generate_bindings P.objects action_def.parameters ∧
    evaluate_precondition action_def.precondition s bindings = true ∧
    s' = simulate_action_effect action_def bindings s

/-- Specification-side Cartesian product of candidate lists in declaration
order (first factor varies slowest), used to state C7 against
`generate_bindings`. -/
def cartLists {α : Type} : List (List α) → List (List α)
  | [] => [[]]
  | c :: cs => c.flatMap (fun x => (cartLists cs).map (fun choice => x :: choice))

/-- Total parenthesis-depth change of a character list. -/
def depthDelta : List Char → Int
  | [] => 0
  | c :: cs => (if c = '(' then 1 else if c = ')' then -1 else 0) + depthDelta cs

/-- Parenthesis-balance check relative to a running depth: every `)` closes a
strictly positive depth and the depth returns to zero at the end.  (Used in C6
to describe a well-formed depth-one literal group.) -/
def parenBalanced : Int → List Char → Bool
  | d, [] => d == 0
  | d, c :: cs =>
    if c = '(' then parenBalanced (d + 1) cs
    else if c = ')' then decide (0 < d) && parenBalanced (d - 1) cs
    else parenBalanced d cs

/-- Safety of scanning a character run from an absolute depth: no `)` ever
closes from depth ≤ 1, so the scanner never returns to depth 0 inside the
run. -/
def scanSafe : Int → List Char → Bool
  | _, [] => true
  | d, c :: cs =>
    if c = '(' then scanSafe (d + 1) cs
    else if c = ')' then decide (2 ≤ d) && scanSafe (d - 1) cs
    else scanSafe d cs

/-- Render a list of depth-one literal groups as parenthesised, space-separated
text: `(g1) (g2) ...`. -/
def renderGroupsChars : List (List Char) → List Char
  | [] => []
  | [g] => '(' :: (g ++ [')'])
  | g :: g' :: gs => '(' :: (g ++ (')' :: ' ' :: renderGroupsChars (g' :: gs)))

/-- Render a list of depth-one literal groups inside a top-level `(and ...)`
wrapper. -/
def renderAndChars (gs : List (List Char)) : List Char :=
  ['(', 'a', 'n', 'd', ' '] ++ renderGroupsChars gs ++ [')']

/-- An always-true condition (no literals): used as an example goal and
precondition. -/
def exEmptyCond : Condition :=
  { positive := [], negative := [] }

/-- The example goal requiring the single fact `g`. -/
def exGoalG : Condition :=
  { positive := ["g"], negative := [] }

/-- Example parsed pair: no actions, empty initial state, goal `g` (the goal is
unreachable). -/
def exParserEmpty : PDDLParser :=
  { actions := [], predicates := [], objects := [], initial_state := ∅, goal := exGoalG }

/-- Example parsed pair: no actions and an empty (always satisfied) goal. -/
def exParserTrivialGoal : PDDLParser :=
  { actions := [], predicates := [], objects := [], initial_state := ∅, goal := exEmptyCond }

/-- Example schema with no parameters, no precondition and no effect. -/
def exNoop : ActionDef :=
  { name := "noop", parameters := [], precondition := exEmptyCond,
    effect := { add := [], delete := [] } }

/-- Example parsed pair with the single schema `noop` and goal `g`. -/
def exParserNoop : PDDLParser :=
  { actions := [("noop", exNoop)], predicates := [], objects := [], initial_state := ∅,
    goal := exGoalG }

/-- Example schema whose precondition requires the fact `p`. -/
def exNeedP : ActionDef :=
  { name := "a", parameters := [], precondition := { positive := ["p"], negative := [] },
    effect := { add := [], delete := [] } }

/-- Example parsed pair with the single schema `a` (which requires `p`) and
goal `g`. -/
def exParserNeedP : PDDLParser :=
  { actions := [("a", exNeedP)], predicates := [], objects := [], initial_state := ∅,
    goal := exGoalG }

/-- Example game state: empty fact set, goal `g`. -/
def exState : GameState :=
  GameState.init ∅ exGoalG

theorem foldl_insert_eq_union (l : List String) :
    ∀ s : Finset String, l.foldl (fun t x => insert x t) s = s ∪ l.toFinset := by
  induction l with
  | nil => intro s; simp
  | cons a as ih =>
    intro s
    simp only [List.foldl_cons, ih (insert a s), List.toFinset_cons]
    ext x
    simp only [Finset.mem_union, Finset.mem_insert, List.mem_toFinset]
    tauto

theorem foldl_erase_eq_sdiff (l : List String) :
    ∀ s : Finset String, l.foldl Finset.erase s = s \ l.toFinset := by
  induction l with
  | nil => intro s; simp
  | cons a as ih =>
    intro s
    simp only [List.foldl_cons, ih (s.erase a), List.toFinset_cons]
    ext x
    simp only [Finset.mem_sdiff, Finset.mem_erase, Finset.mem_insert, List.mem_toFinset]
    tauto

theorem mem_finsetAsList {α : Type} [LinearOrder α] (s : Finset α) (a : α) :
    a ∈ finsetAsList s ↔ a ∈ s := by
  rcases s with ⟨m, hn⟩
  induction m using Quot.inductionOn with
  | h l =>
    have h1 : finsetAsList ⟨Quot.mk _ l, hn⟩ = List.insertionSort (· ≤ ·) l := rfl
    rw [h1, List.mem_insertionSort]
    exact (Finset.mem_mk.trans (Multiset.mem_coe)).symm

theorem finsetAsList_toFinset {α : Type} [LinearOrder α] [DecidableEq α] (s : Finset α) :
    (finsetAsList s).toFinset = s := by
  ext a
  simp [List.mem_toFinset, mem_finsetAsList]

theorem finsetAsList_eq_nil_iff {α : Type} [LinearOrder α] (s : Finset α) :
    finsetAsList s = [] ↔ s = ∅ := by
  constructor
  · intro h
    refine Finset.eq_empty_iff_forall_not_mem.2 (fun a ha => ?_)
    have := (mem_finsetAsList s a).2 ha
    rw [h] at this
    exact (List.not_mem_nil a) this
  · intro h
    subst h
    rfl

theorem finsetAsList_map_toFinset {α β : Type} [LinearOrder α] [DecidableEq β]
    (s : Finset α) (g : α → β) : ((finsetAsList s).map g).toFinset = s.image g := by
  ext b
  simp only [List.mem_toFinset, List.mem_map, Finset.mem_image, mem_finsetAsList]

theorem from_dict_to_dict (gs : GameState) (h : gs.visited_states.Nonempty) :
    GameState.from_dict gs.to_dict gs.goal = gs := by
  obtain ⟨cf, gl, sc, ah, vs⟩ := gs
  have hvs : ¬ (finsetAsList (vs.image finsetAsList)).isEmpty = true := by
    rw [List.isEmpty_iff, finsetAsList_eq_nil_iff, Finset.image_eq_empty]
    intro he
    rw [he] at h
    exact Finset.not_nonempty_empty h
  simp only [GameState.to_dict, GameState.from_dict, GameState.init] at *
  rw [if_neg hvs]
  have hv : ((finsetAsList (vs.image finsetAsList)).map List.toFinset).toFinset = vs := by
    rw [finsetAsList_map_toFinset, Finset.image_image]
    have : vs.image (List.toFinset ∘ finsetAsList) = vs.image id :=
      Finset.image_congr (fun x _ => finsetAsList_toFinset x)
    rw [this, Finset.image_id]
  simp [finsetAsList_toFinset, hv]

/-- C9: `_simulate_action_effect` returns the input facts plus all grounded add
literals minus all grounded delete literals, without mutating its input (the
model is pure), and this equals the fact set that the mutating
`GameState.apply_action` produces from the same action definition, binding and
starting facts. -/
theorem c9_simulate_effect_matches_apply_action (action_def : ActionDef) (bindings : Binding)
    (current_state : Finset String) (goal : Condition) (step_count : Nat)
    (history : List HistoryEntry) (visited : Finset (Finset String)) :
    simulate_action_effect action_def bindings current_state
        = (current_state
            ∪ (action_def.effect.add.map (fun p => ground_predicate p bindings)).toFinset)
          \ (action_def.effect.delete.map (fun p => ground_predicate p bindings)).toFinset
      ∧ simulate_action_effect action_def bindings current_state
        = (GameState.apply_action
            { current_facts := current_state, goal := goal, step_count := step_count,
              action_history := history, visited_states := visited }
            action_def bindings).current_facts := by
  constructor
  · rw [simulate_action_effect, foldl_insert_eq_union, foldl_erase_eq_sdiff]
  · rfl

/-- C3: `execute_action` with an unknown action name, or with a binding whose
precondition fails against the current facts, reports the corresponding error
(`UnknownAction` / `PreconditionNotSatisfied`) and returns the `GameState`
completely unchanged (facts, step count, history and visited signatures
included: the returned state is the input state). -/
theorem c3_execute_action_failure_preserves_state (P : PDDLParser) (gs : GameState)
    (action_name : String) (bindings : Binding) (max_actions : Option Nat) :
    (P.getAction action_name = none →
      execute_action P gs action_name bindings max_actions
        = (gs, Except.error (ExecError.unknownAction action_name)))
  ∧ (∀ action_def, P.getAction action_name = some action_def →
      evaluate_precondition action_def.precondition gs.current_facts bindings = false →
      execute_action P gs action_name bindings max_actions
        = (gs, Except.error ExecError.preconditionNotSatisfied)) := by
  constructor
  · intro h
    simp [execute_action, h]
  · intro action_def h hpre
    simp [execute_action, h, hpre]

theorem c3_witness :
    execute_action exParserEmpty exState "missing" [] none
        = (exState, Except.error (ExecError.unknownAction "missing"))
      ∧ execute_action exParserNeedP exState "a" [] none
        = (exState, Except.error ExecError.preconditionNotSatisfied) := by
  constructor
  · exact (c3_execute_action_failure_preserves_state exParserEmpty exState "missing" [] none).1
      (by rfl)
  · exact (c3_execute_action_failure_preserves_state exParserNeedP exState "a" [] none).2
      exNeedP (by rfl) (by decide)

/-- C8: `from_dict (to_dict gs)` restores the fact set, step count, action
history and visited signatures of any game state the code can construct (every
such state has a nonempty visited set, since the constructor records the
initial signature — see C10); and `from_dict` of data whose visited entry is
absent or empty does not fail but records exactly the restored current fact
set's signature as the only visited signature. -/
theorem c8_to_dict_from_dict_roundtrip (gs : GameState) (h : gs.visited_states.Nonempty) :
    GameState.from_dict gs.to_dict gs.goal = gs
  ∧ ∀ (data : StateDict) (goal : Condition), data.visited_states = [] →
      (GameState.from_dict data goal).visited_states
        = {(GameState.from_dict data goal).current_facts} := by
  refine ⟨from_dict_to_dict gs h, ?_⟩
  intro data goal hvs
  simp [GameState.from_dict, GameState.init, hvs]

theorem c8_witness :
    GameState.from_dict exState.to_dict exState.goal = exState
      ∧ (GameState.from_dict
            { facts := ["a"], step_count := 3, action_history := [], visited_states := [] }
            exGoalG).visited_states
        = {(GameState.from_dict
            { facts := ["a"], step_count := 3, action_history := [], visited_states := [] }
            exGoalG).current_facts} := by
  have h := c8_to_dict_from_dict_roundtrip exState (by decide)
  exact ⟨h.1, h.2 _ exGoalG rfl⟩

/-- C10: for every state built by the constructor followed by any sequence of
`apply_action` calls, the signature of the current fact set is a member of the
visited set; and this invariant is preserved by `from_dict` applied to
`to_dict` output, including the empty-visited fallback case. -/
theorem c10_current_signature_always_visited :
    (∀ (initial : Finset String) (goal : Condition) (steps : List (ActionDef × Binding)),
      (steps.foldl (fun gs ab => gs.apply_action ab.1 ab.2)
          (GameState.init initial goal)).current_facts
        ∈ (steps.foldl (fun gs ab => gs.apply_action ab.1 ab.2)
          (GameState.init initial goal)).visited_states)
  ∧ (∀ gs : GameState, gs.current_facts ∈ gs.visited_states →
      (GameState.from_dict gs.to_dict gs.goal).current_facts
        ∈ (GameState.from_dict gs.to_dict gs.goal).visited_states)
  ∧ (∀ (data : StateDict) (goal : Condition), data.visited_states = [] →
      (GameState.from_dict data goal).current_facts
        ∈ (GameState.from_dict data goal).visited_states) := by
  refine ⟨?_, ?_, ?_⟩
  · intro initial goal steps
    have key : ∀ (steps : List (ActionDef × Binding)) (gs : GameState),
        gs.current_facts ∈ gs.visited_states →
        (steps.foldl (fun gs ab => gs.apply_action ab.1 ab.2) gs).current_facts
          ∈ (steps.foldl (fun gs ab => gs.apply_action ab.1 ab.2) gs).visited_states := by
      intro steps
      induction steps with
      | nil => intro gs h; exact h
      | cons ab abs ih =>
        intro gs _
        refine ih _ ?_
        simp [GameState.apply_action]
    exact key steps _ (by simp [GameState.init])
  · intro gs h
    rw [from_dict_to_dict gs ⟨_, h⟩]
    exact h
  · intro data goal h
    simp [GameState.from_dict, GameState.init, h]

theorem c10_witness :
    (([] : List (ActionDef × Binding)).foldl (fun gs ab => gs.apply_action ab.1 ab.2)
        (GameState.init ∅ exGoalG)).current_facts
      ∈ (([] : List (ActionDef × Binding)).foldl (fun gs ab => gs.apply_action ab.1 ab.2)
        (GameState.init ∅ exGoalG)).visited_states
  ∧ (GameState.from_dict exState.to_dict exState.goal).current_facts
      ∈ (GameState.from_dict exState.to_dict exState.goal).visited_states
  ∧ (GameState.from_dict
        { facts := [], step_count := 0, action_history := [], visited_states := [] }
        exGoalG).current_facts
      ∈ (GameState.from_dict
        { facts := [], step_count := 0, action_history := [], visited_states := [] }
        exGoalG).visited_states :=
  ⟨c10_current_signature_always_visited.1 ∅ exGoalG [],
   c10_current_signature_always_visited.2.1 exState (by decide),
   c10_current_signature_always_visited.2.2 _ exGoalG rfl⟩

theorem flatMap_congr_mem {α β : Type} (l : List α) (f g : α → List β)
    (h : ∀ a ∈ l, f a = g a) : l.flatMap f = l.flatMap g := by
  induction l with
  | nil => rfl
  | cons a as ih =>
    simp only [List.flatMap_cons]
    rw [h a (List.mem_cons_self a as), ih (fun b hb => h b (List.mem_cons_of_mem a hb))]

theorem bindingUpdate_fresh (b : Binding) (k v : String) (h : k ∉ b.map Prod.fst) :
    bindingUpdate b k v = b ++ [(k, v)] := by
  induction b with
  | nil => rfl
  | cons kv rest ih =>
    obtain ⟨k', v'⟩ := kv
    simp only [List.map_cons, List.mem_cons] at h
    push_neg at h
    obtain ⟨h1, h2⟩ := h
    simp only [bindingUpdate, List.cons_append]
    rw [if_neg (fun hh => h1 hh.symm), ih h2]

theorem generate_step_length (objs : List (String × String)) (param : Param) :
    ∀ bl : List Binding,
      (bl.flatMap (fun binding => (candidateObjects objs param).map
          (fun obj => bindingUpdate binding param.name obj))).length
        = bl.length * (candidateObjects objs param).length := by
  intro bl
  induction bl with
  | nil => simp
  | cons b rest ih =>
    simp only [List.flatMap_cons, List.length_append, List.length_map, ih, List.length_cons]
    rw [Nat.succ_mul]
    omega

theorem generate_foldl_length (objs : List (String × String)) :
    ∀ (ps : List Param) (bl : List Binding),
      (ps.foldl (fun bindings_list param =>
          bindings_list.flatMap (fun binding => (candidateObjects objs param).map
            (fun obj => bindingUpdate binding param.name obj))) bl).length
        = bl.length * (ps.map (fun p => (candidateObjects objs p).length)).prod := by
  intro ps
  induction ps with
  | nil => intro bl; simp
  | cons p ps ih =>
    intro bl
    simp only [List.foldl_cons, List.map_cons, List.prod_cons]
    rw [ih, generate_step_length]
    ring

theorem generate_foldl_cart (objs : List (String × String)) :
    ∀ (ps : List Param) (bl : List Binding),
      (ps.map Param.name).Nodup →
      (∀ b ∈ bl, ∀ p ∈ ps, p.name ∉ b.map Prod.fst) →
      ps.foldl (fun bindings_list param =>
          bindings_list.flatMap (fun binding => (candidateObjects objs param).map
            (fun obj => bindingUpdate binding param.name obj))) bl
        = bl.flatMap (fun b => (cartLists (ps.map (candidateObjects objs))).map
            (fun choice => b ++ (ps.map Param.name).zip choice)) := by
  intro ps
  induction ps with
  | nil =>
    intro bl _ _
    simp [cartLists]
  | cons p ps ih =>
    intro bl hnodup hfresh
    simp only [List.map_cons, List.nodup_cons] at hnodup
    obtain ⟨hp, hnodup'⟩ := hnodup
    simp only [List.foldl_cons]
    rw [ih _ hnodup' ?fresh]
    case fresh =>
      intro b' hb' q hq
      simp only [List.mem_flatMap, List.mem_map] at hb'
      obtain ⟨b, hb, obj, hobj, rfl⟩ := hb'
      rw [bindingUpdate_fresh b p.name obj (hfresh b hb p (List.mem_cons_self p ps))]
      simp only [List.map_append, List.map_cons, List.map_nil, List.mem_append,
        List.mem_singleton]
      rintro (hin | heq)
      · exact hfresh b hb q (List.mem_cons_of_mem p hq) hin
      · exact hp (by rw [← heq]; exact List.mem_map_of_mem Param.name hq)
    rw [List.flatMap_assoc]
    refine flatMap_congr_mem bl _ _ ?_
    intro b hb
    have hupd : ∀ obj, bindingUpdate b p.name obj = b ++ [(p.name, obj)] := fun obj =>
      bindingUpdate_fresh b p.name obj (hfresh b hb p (List.mem_cons_self p ps))
    simp only [cartLists, List.map_cons, List.flatMap_map]
    rw [List.map_flatMap]
    refine flatMap_congr_mem _ _ _ ?_
    intro obj _
    rw [List.map_map]
    congr 1
    funext choice
    simp only [Function.comp_apply, List.zip_cons_cons, hupd, List.append_assoc,
      List.singleton_append]

/-- C7: `_generate_bindings` returns exactly the Cartesian product over the
per-parameter candidate sets in declaration order (first parameter varying
slowest), where a parameter's candidates are the objects whose type tag equals
the parameter's (or all objects for the universal tag `object`), silently
falling back to the whole registry when no object of the type exists; a
missing type alone never empties the binding list, and an empty parameter list
yields exactly the single empty binding. -/
theorem c7_generate_bindings_is_cartesian_product (objs : List (String × String))
    (ps : List Param) :
    ((ps.map Param.name).Nodup →
      generate_bindings objs ps
        = (cartLists (ps.map (candidateObjects objs))).map
            (fun choice => (ps.map Param.name).zip choice))
  ∧ (generate_bindings objs ps).length
      = (ps.map (fun p => (candidateObjects objs p).length)).prod
  ∧ (ps = [] → generate_bindings objs ps = [[]])
  ∧ (∀ p, ((objs.filter (fun ot => ot.2 = p.type || p.type = "object")).map (·.1)).isEmpty →
      candidateObjects objs p = objs.map (·.1))
  ∧ (objs ≠ [] → generate_bindings objs ps ≠ []) := by
  have hlen : (generate_bindings objs ps).length
      = (ps.map (fun p => (candidateObjects objs p).length)).prod := by
    unfold generate_bindings
    split
    · next hempty =>
      rw [List.isEmpty_iff] at hempty
      subst hempty
      rfl
    · rw [generate_foldl_length]
      simp
  refine ⟨?_, hlen, ?_, ?_, ?_⟩
  · intro hnodup
    unfold generate_bindings
    split
    · next hempty =>
      rw [List.isEmpty_iff] at hempty
      subst hempty
      simp [cartLists]
    · rw [generate_foldl_cart objs ps [[]] hnodup (by intro b hb; simp at hb; simp [hb])]
      simp
  · intro h
    subst h
    rfl
  · intro p hempty
    simp only [candidateObjects]
    rw [if_pos hempty]
  · intro hobjs hnil
    have : (generate_bindings objs ps).length = 0 := by rw [hnil]; rfl
    rw [hlen] at this
    have hpos : 0 < (ps.map (fun p => (candidateObjects objs p).length)).prod := by
      refine List.prod_pos ?_
      intro a ha
      simp only [List.mem_map] at ha
      obtain ⟨p, _, rfl⟩ := ha
      simp only [candidateObjects]
      split
      · next =>
        simp only [List.length_map]
        exact List.length_pos_of_ne_nil hobjs
      · next hne =>
        rw [List.isEmpty_iff] at hne
        · exact List.length_pos_of_ne_nil (by simpa using hne)
    omega

theorem c7_witness :
    ((([⟨"x", "t"⟩] : List Param).map Param.name).Nodup
      ∧ generate_bindings [("o", "t")] [⟨"x", "t"⟩]
        = (cartLists (([⟨"x", "t"⟩] : List Param).map (candidateObjects [("o", "t")]))).map
            (fun choice => (([⟨"x", "t"⟩] : List Param).map Param.name).zip choice))
  ∧ (([] : List Param) = [] ∧ generate_bindings [("o", "t")] [] = [[]])
  ∧ (([("o", "t")] : List (String × String)) ≠ []
      ∧ generate_bindings [("o", "t")] [⟨"x", "missing"⟩] ≠ []) := by
  refine ⟨⟨by decide, ?_⟩, ⟨rfl, ?_⟩, ⟨by decide, ?_⟩⟩
  · exact (c7_generate_bindings_is_cartesian_product [("o", "t")] [⟨"x", "t"⟩]).1 (by decide)
  · exact (c7_generate_bindings_is_cartesian_product [("o", "t")] []).2.2.1 rfl
  · exact (c7_generate_bindings_is_cartesian_product [("o", "t")] [⟨"x", "missing"⟩]).2.2.2.2
      (by decide)

theorem gaa_foldl (P : PDDLParser) (gs : GameState) :
    ∀ (l : List ApplicableAction) (acc : List AnnotatedAction × List AnnotatedAction),
      l.foldl
        (fun (acc : List AnnotatedAction × List AnnotatedAction) action =>
          let simulated :=
            match P.getAction action.action with
            | some action_def => simulate_action_effect action_def action.bindings gs.current_facts
            | none => gs.current_facts
          let revisits := decide (simulated ∈ gs.visited_states)
          let formatted : AnnotatedAction :=
            { action := action.action, bindings := action.bindings, revisits_state := revisits }
          if revisits then (acc.1, acc.2 ++ [formatted]) else (acc.1 ++ [formatted], acc.2)) acc
      = (acc.1 ++ (l.map (fun action =>
            ({ action := action.action, bindings := action.bindings,
               revisits_state := decide ((match P.getAction action.action with
                 | some action_def =>
                     simulate_action_effect action_def action.bindings gs.current_facts
                 | none => gs.current_facts) ∈ gs.visited_states) } : AnnotatedAction))).filter
          (fun x => !x.revisits_state),
         acc.2 ++ (l.map (fun action =>
            ({ action := action.action, bindings := action.bindings,
               revisits_state := decide ((match P.getAction action.action with
                 | some action_def =>
                     simulate_action_effect action_def action.bindings gs.current_facts
                 | none => gs.current_facts) ∈ gs.visited_states) } : AnnotatedAction))).filter
          (fun x => x.revisits_state)) := by
  intro l
  induction l with
  | nil => intro acc; simp
  | cons a as ih =>
    intro acc
    rw [List.foldl_cons, ih]
    by_cases hmem : (match P.getAction a.action with
        | some action_def => simulate_action_effect action_def a.bindings gs.current_facts
        | none => gs.current_facts) ∈ gs.visited_states
    · simp [hmem, List.filter_cons, List.append_assoc]
    · simp [hmem, List.filter_cons, List.append_assoc]

theorem filter_partition_perm (l : List AnnotatedAction) :
    (l.filter (fun x => !x.revisits_state) ++ l.filter (fun x => x.revisits_state)).Perm l := by
  have h := List.filter_append_perm (fun (x : AnnotatedAction) => !x.revisits_state) l
  have hc : l.filter (fun x => !(!x.revisits_state)) = l.filter (fun x => x.revisits_state) :=
    List.filter_congr (fun a _ => by simp)
  rw [hc] at h
  exact h

theorem take_match_empty_iff (F : List AnnotatedAction) (max_actions : Option Nat) :
    (match max_actions with
     | some m => if F.length > m then F.take m else F
     | none => F) = []
      ↔ (F = [] ∨ max_actions = some 0) := by
  cases max_actions with
  | none => simp
  | some m =>
    dsimp only
    by_cases hm : F.length > m
    · rw [if_pos hm, List.take_eq_nil_iff]
      constructor
      · rintro (h | h)
        · exact Or.inr (by rw [h])
        · exact Or.inl h
      · rintro (h | h)
        · exact Or.inr h
        · injection h with h
          exact Or.inl h
    · rw [if_neg hm]
      constructor
      · intro h
        exact Or.inl h
      · rintro (h | h)
        · exact h
        · injection h with h
          subst h
          exact List.eq_nil_of_length_eq_zero (by omega)

theorem gaa_full_eq (P : PDDLParser) (gs : GameState) (max_actions : Option Nat) :
    get_available_actions P gs max_actions
      = (match max_actions with
         | some m =>
           if (((get_applicable_actions P gs.current_facts).map (fun action =>
                ({ action := action.action, bindings := action.bindings,
                   revisits_state := decide ((match P.getAction action.action with
                     | some action_def =>
                         simulate_action_effect action_def action.bindings gs.current_facts
                     | none => gs.current_facts) ∈ gs.visited_states) } : AnnotatedAction))).filter
                  (fun x => !x.revisits_state)
                ++ ((get_applicable_actions P gs.current_facts).map (fun action =>
                ({ action := action.action, bindings := action.bindings,
                   revisits_state := decide ((match P.getAction action.action with
                     | some action_def =>
                         simulate_action_effect action_def action.bindings gs.current_facts
                     | none => gs.current_facts) ∈ gs.visited_states) } : AnnotatedAction))).filter
                  (fun x => x.revisits_state)).length > m then
             (((get_applicable_actions P gs.current_facts).map (fun action =>
                ({ action := action.action, bindings := action.bindings,
                   revisits_state := decide ((match P.getAction action.action with
                     | some action_def =>
                         simulate_action_effect action_def action.bindings gs.current_facts
                     | none => gs.current_facts) ∈ gs.visited_states) } : AnnotatedAction))).filter
                  (fun x => !x.revisits_state)
                ++ ((get_applicable_actions P gs.current_facts).map (fun action =>
                ({ action := action.action, bindings := action.bindings,
                   revisits_state := decide ((match P.getAction action.action with
                     | some action_def =>
                         simulate_action_effect action_def action.bindings gs.current_facts
                     | none => gs.current_facts) ∈ gs.visited_states) } : AnnotatedAction))).filter
                  (fun x => x.revisits_state)).take m
           else
             ((get_applicable_actions P gs.current_facts).map (fun action =>
                ({ action := action.action, bindings := action.bindings,
                   revisits_state := decide ((match P.getAction action.action with
                     | some action_def =>
                         simulate_action_effect action_def action.bindings gs.current_facts
                     | none => gs.current_facts) ∈ gs.visited_states) } : AnnotatedAction))).filter
                  (fun x => !x.revisits_state)
                ++ ((get_applicable_actions P gs.current_facts).map (fun action =>
                ({ action := action.action, bindings := action.bindings,
                   revisits_state := decide ((match P.getAction action.action with
                     | some action_def =>
                         simulate_action_effect action_def action.bindings gs.current_facts
                     | none => gs.current_facts) ∈ gs.visited_states) } : AnnotatedAction))).filter
                  (fun x => x.revisits_state)
         | none =>
           ((get_applicable_actions P gs.current_facts).map (fun action =>
              ({ action := action.action, bindings := action.bindings,
                 revisits_state := decide ((match P.getAction action.action with
                   | some action_def =>
                       simulate_action_effect action_def action.bindings gs.current_facts
                   | none => gs.current_facts) ∈ gs.visited_states) } : AnnotatedAction))).filter
                (fun x => !x.revisits_state)
              ++ ((get_applicable_actions P gs.current_facts).map (fun action =>
              ({ action := action.action, bindings := action.bindings,
                 revisits_state := decide ((match P.getAction action.action with
                   | some action_def =>
                       simulate_action_effect action_def action.bindings gs.current_facts
                   | none => gs.current_facts) ∈ gs.visited_states) } : AnnotatedAction))).filter
                (fun x => x.revisits_state)) := by
  simp only [get_available_actions]
  by_cases happ : (get_applicable_actions P gs.current_facts).isEmpty
  · rw [if_pos happ]
    rw [List.isEmpty_iff] at happ
    rw [happ]
    cases max_actions <;> simp
  · rw [if_neg happ, gaa_foldl]
    simp only [List.nil_append]

theorem gaa_empty_iff (P : PDDLParser) (gs : GameState) (max_actions : Option Nat) :
    get_available_actions P gs max_actions = []
      ↔ (get_applicable_actions P gs.current_facts = [] ∨ max_actions = some 0) := by
  rw [gaa_full_eq, take_match_empty_iff]
  have hperm := filter_partition_perm
    ((get_applicable_actions P gs.current_facts).map (fun action =>
      ({ action := action.action, bindings := action.bindings,
         revisits_state := decide ((match P.getAction action.action with
           | some action_def =>
               simulate_action_effect action_def action.bindings gs.current_facts
           | none => gs.current_facts) ∈ gs.visited_states) } : AnnotatedAction)))
  have hlen := hperm.length_eq
  simp only [List.length_map] at hlen
  constructor
  · rintro (h | h)
    · left
      have h0 : (get_applicable_actions P gs.current_facts).length = 0 := by
        rw [← hlen, h]
        rfl
      exact List.eq_nil_of_length_eq_zero h0
    · exact Or.inr h
  · rintro (h | h)
    · left
      rw [h]
      rfl
    · exact Or.inr h

theorem pairwise_filter_partition (l : List AnnotatedAction) :
    (l.filter (fun x => !x.revisits_state) ++ l.filter (fun x => x.revisits_state)).Pairwise
      (fun x y => x.revisits_state = true → y.revisits_state = true) := by
  rw [List.pairwise_append]
  refine ⟨?_, ?_, ?_⟩
  · refine List.pairwise_of_forall_mem_list ?_
    intro a ha b _ hrev
    have := List.of_mem_filter ha
    rw [hrev] at this
    exact absurd this (by simp)
  · refine List.pairwise_of_forall_mem_list ?_
    intro a _ b hb _
    simpa using List.of_mem_filter hb
  · intro a _ b hb _
    simpa using List.of_mem_filter hb

/-- C5: `get_available_actions` returns one annotated entry per applicable
ground action, with `revisits_state` true exactly when the signature of that
action's simulated successor is already in the visited set; all non-revisiting
entries are ordered before all revisiting ones; and when a limit is supplied
and the combined list is longer, the result is truncated to exactly `limit`
entries. -/
theorem c5_available_actions_annotated_ordered_truncated (P : PDDLParser) (gs : GameState)
    (max_actions : Option Nat) :
    ∃ annotated : List AnnotatedAction,
      annotated
          = (get_applicable_actions P gs.current_facts).map (fun action =>
              { action := action.action, bindings := action.bindings,
                revisits_state := decide ((match P.getAction action.action with
                  | some action_def =>
                      simulate_action_effect action_def action.bindings gs.current_facts
                  | none => gs.current_facts) ∈ gs.visited_states) })
        ∧ List.Perm
            (annotated.filter (fun x => !x.revisits_state)
              ++ annotated.filter (fun x => x.revisits_state)) annotated
        ∧ get_available_actions P gs max_actions
            = (match max_actions with
               | some m =>
                 if (annotated.filter (fun x => !x.revisits_state)
                     ++ annotated.filter (fun x => x.revisits_state)).length > m then
                   (annotated.filter (fun x => !x.revisits_state)
                     ++ annotated.filter (fun x => x.revisits_state)).take m
                 else
                   annotated.filter (fun x => !x.revisits_state)
                     ++ annotated.filter (fun x => x.revisits_state)
               | none =>
                 annotated.filter (fun x => !x.revisits_state)
                   ++ annotated.filter (fun x => x.revisits_state))
        ∧ List.Pairwise (fun x y => x.revisits_state = true → y.revisits_state = true)
            (get_available_actions P gs max_actions)
        ∧ (∀ m, max_actions = some m → m < annotated.length →
            (get_available_actions P gs max_actions).length = m) := by
  refine ⟨_, rfl, filter_partition_perm _, gaa_full_eq P gs max_actions, ?_, ?_⟩
  · rw [gaa_full_eq]
    rcases max_actions with _ | m
    · exact pairwise_filter_partition _
    · dsimp only
      split
      · exact (pairwise_filter_partition _).sublist (List.take_sublist _ _)
      · exact pairwise_filter_partition _
  · intro m hm hlt
    subst hm
    rw [gaa_full_eq]
    dsimp only
    have hflen := (filter_partition_perm
      ((get_applicable_actions P gs.current_facts).map (fun action =>
        ({ action := action.action, bindings := action.bindings,
           revisits_state := decide ((match P.getAction action.action with
             | some action_def =>
                 simulate_action_effect action_def action.bindings gs.current_facts
             | none => gs.current_facts) ∈ gs.visited_states) } : AnnotatedAction)))).length_eq
    rw [if_pos (by omega)]
    rw [List.length_take]
    omega

theorem c5_witness : (get_available_actions exParserNoop exState (some 0)).length = 0 := by
  obtain ⟨ann, h1, _, _, _, h5⟩ :=
    c5_available_actions_annotated_ordered_truncated exParserNoop exState (some 0)
  refine h5 0 rfl ?_
  rw [h1]
  decide

/-- C4 (amended): on success, `execute_action` produces the new fact set equal
to the old facts plus all grounded add literals minus all grounded delete
literals (atomically), appends exactly one history entry
`(stepCount+1, name, binding)`, inserts the new state's signature into the
visited set, increments the step count, returns the goal flag evaluated on the
new state and an available-actions list that is empty when the goal is
reached; `dead_end` is true exactly when the goal is not reached and the
returned available-actions list is empty, which — whenever the limit is absent
or positive — coincides with no applicable actions remaining in the new state
(a limit of 0 empties the list even when applicable actions remain, see the
counterexample). -/
theorem c4_execute_action_success_spec (P : PDDLParser) (gs : GameState) (action_name : String)
    (action_def : ActionDef) (bindings : Binding) (max_actions : Option Nat)
    (hlook : P.getAction action_name = some action_def)
    (hpre : evaluate_precondition action_def.precondition gs.current_facts bindings = true) :
    ∃ res : ExecResult,
      execute_action P gs action_name bindings max_actions
        = (gs.apply_action action_def bindings, Except.ok res)
      ∧ (gs.apply_action action_def bindings).current_facts
          = (gs.current_facts
              ∪ (action_def.effect.add.map (fun p => ground_predicate p bindings)).toFinset)
            \ (action_def.effect.delete.map (fun p => ground_predicate p bindings)).toFinset
      ∧ (gs.apply_action action_def bindings).action_history
          = gs.action_history
            ++ [{ step := gs.step_count + 1, action := action_def.name, bindings := bindings }]
      ∧ (gs.apply_action action_def bindings).visited_states
          = insert (gs.apply_action action_def bindings).current_facts gs.visited_states
      ∧ (gs.apply_action action_def bindings).step_count = gs.step_count + 1
      ∧ res.step = (gs.apply_action action_def bindings).step_count
      ∧ res.goal_reached = (gs.apply_action action_def bindings).is_goal_reached
      ∧ (res.goal_reached = true → res.available_actions = [])
      ∧ (res.goal_reached = false →
          res.available_actions
            = get_available_actions P (gs.apply_action action_def bindings) max_actions)
      ∧ (res.dead_end = true ↔ res.goal_reached = false ∧ res.available_actions = [])
      ∧ ((max_actions = none ∨ ∃ m, max_actions = some m ∧ m ≠ 0) →
          (res.dead_end = true
            ↔ res.goal_reached = false
              ∧ get_applicable_actions P (gs.apply_action action_def bindings).current_facts
                = [])) := by
  refine ⟨{ step := (gs.apply_action action_def bindings).step_count,
            state := (gs.apply_action action_def bindings).to_dict,
            goal_reached := (gs.apply_action action_def bindings).is_goal_reached,
            available_actions :=
              if (gs.apply_action action_def bindings).is_goal_reached then []
              else get_available_actions P (gs.apply_action action_def bindings) max_actions,
            dead_end :=
              !(gs.apply_action action_def bindings).is_goal_reached
                && (if (gs.apply_action action_def bindings).is_goal_reached then []
                    else get_available_actions P (gs.apply_action action_def bindings)
                      max_actions).isEmpty },
    ?_, ?_, ?_, ?_, ?_, rfl, rfl, ?_, ?_, ?_, ?_⟩
  · simp only [execute_action, hlook]
    rw [if_pos hpre]
  · simp only [GameState.apply_action]
    rw [foldl_insert_eq_union, foldl_erase_eq_sdiff]
  · simp [GameState.apply_action]
  · simp [GameState.apply_action]
  · simp [GameState.apply_action]
  · intro h
    simp only at h
    simp [h]
  · intro h
    simp only at h
    simp [h]
  · simp only [Bool.and_eq_true, Bool.not_eq_true', List.isEmpty_iff]
  · intro hlim
    by_cases hg : (gs.apply_action action_def bindings).is_goal_reached
    · simp [hg]
    · simp only [Bool.and_eq_true, Bool.not_eq_true', List.isEmpty_iff, eq_self_iff_true]
      rw [Bool.not_eq_true] at hg
      rw [if_neg (by simp [hg]), hg]
      rw [gaa_empty_iff]
      rcases hlim with hnone | ⟨m, hm, hm0⟩
      · subst hnone
        simp
      · subst hm
        constructor
        · rintro ⟨_, h | h⟩
          · exact ⟨rfl, h⟩
          · exact absurd h (by simp [hm0])
        · rintro ⟨_, h⟩
          exact ⟨rfl, Or.inl h⟩

theorem c4_limit_zero_dead_end_counterexample :
    (execute_action exParserNoop exState "noop" [] (some 0)).2
        = Except.ok
          { step := 1,
            state := { facts := [], step_count := 1,
                       action_history := [{ step := 1, action := "noop", bindings := [] }],
                       visited_states := [[]] },
            goal_reached := false,
            available_actions := [],
            dead_end := true }
      ∧ get_applicable_actions exParserNoop
          ((execute_action exParserNoop exState "noop" [] (some 0)).1).current_facts ≠ [] := by
  constructor
  · rfl
  · decide

theorem c4_witness :
    (execute_action exParserNoop exState "noop" [] none).1 = exState.apply_action exNoop []
      ∧ (exState.apply_action exNoop []).step_count = exState.step_count + 1 := by
  obtain ⟨res, h1, h2, h3, h4, h5, _⟩ :=
    c4_execute_action_success_spec exParserNoop exState "noop" exNoop [] none (by rfl) (by decide)
  exact ⟨congrArg Prod.fst h1, h5⟩

theorem depthDelta_cons (c : Char) (cs : List Char) :
    depthDelta (c :: cs)
      = (if c = '(' then 1 else if c = ')' then -1 else 0) + depthDelta cs := rfl

theorem scanSafe_cons (d : Int) (c : Char) (cs : List Char) :
    scanSafe d (c :: cs)
      = if c = '(' then scanSafe (d + 1) cs
        else if c = ')' then (decide (2 ≤ d) && scanSafe (d - 1) cs)
        else scanSafe d cs := rfl

theorem parenBalanced_cons (d : Int) (c : Char) (cs : List Char) :
    parenBalanced d (c :: cs)
      = if c = '(' then parenBalanced (d + 1) cs
        else if c = ')' then (decide (0 < d) && parenBalanced (d - 1) cs)
        else parenBalanced d cs := rfl

theorem scanClassify_cons (c : Char) (cs : List Char) (depth : Int) (current : List Char)
    (acc : List String × List String) :
    scanClassify (c :: cs) depth current acc
      = if c = '(' then
          (if depth + 1 = 1 then scanClassify cs (depth + 1) [] acc
           else scanClassify cs (depth + 1) (current ++ ['(']) acc)
        else if c = ')' then
          (if depth - 1 = 0 ∧ current ≠ [] then
            scanClassify cs (depth - 1) [] (classifyGroup ⟨pyStripChars current⟩ acc)
          else scanClassify cs (depth - 1) (current ++ [')']) acc)
        else
          (if depth > 0 then scanClassify cs depth (current ++ [c]) acc
           else scanClassify cs depth current acc) := rfl

theorem findAndClose_cons (c : Char) (cs : List Char) (j : Nat) (depth : Int) :
    findAndClose (c :: cs) j depth
      = if c = '(' then findAndClose cs (j + 1) (depth + 1)
        else if c = ')' then
          (if depth - 1 = 0 then some j else findAndClose cs (j + 1) (depth - 1))
        else findAndClose cs (j + 1) depth := rfl

theorem depthDelta_append (xs ys : List Char) :
    depthDelta (xs ++ ys) = depthDelta xs + depthDelta ys := by
  induction xs with
  | nil => simp [depthDelta]
  | cons c cs ih =>
    rw [List.cons_append, depthDelta_cons, depthDelta_cons, ih]
    ring

theorem scanSafe_mono (xs : List Char) :
    ∀ d d' : Int, d ≤ d' → scanSafe d xs = true → scanSafe d' xs = true := by
  induction xs with
  | nil => intro d d' _ _; rfl
  | cons c cs ih =>
    intro d d' hdd h
    rw [scanSafe_cons] at h ⊢
    by_cases hc1 : c = '('
    · rw [if_pos hc1] at h ⊢
      exact ih _ _ (by omega) h
    · by_cases hc2 : c = ')'
      · rw [if_neg hc1, if_pos hc2] at h ⊢
        rw [Bool.and_eq_true] at h ⊢
        obtain ⟨h1, h2⟩ := h
        simp only [decide_eq_true_eq] at h1 ⊢
        exact ⟨by omega, ih _ _ (by omega) h2⟩
      · rw [if_neg hc1, if_neg hc2] at h ⊢
        exact ih _ _ hdd h

theorem scanSafe_append (xs : List Char) :
    ∀ (ys : List Char) (d : Int),
      scanSafe d (xs ++ ys) = (scanSafe d xs && scanSafe (d + depthDelta xs) ys) := by
  induction xs with
  | nil => intro ys d; simp [depthDelta, scanSafe]
  | cons c cs ih =>
    intro ys d
    rw [List.cons_append, scanSafe_cons, scanSafe_cons, depthDelta_cons]
    by_cases hc1 : c = '('
    · rw [if_pos hc1, if_pos hc1, ih]
      have h : d + 1 + depthDelta cs = d + (1 + depthDelta cs) := by ring
      rw [h, if_pos hc1]
    · by_cases hc2 : c = ')'
      · rw [if_neg hc1, if_pos hc2, if_neg hc1, if_pos hc2, ih]
        have h : d - 1 + depthDelta cs = d + (-1 + depthDelta cs) := by ring
        rw [h, Bool.and_assoc, if_neg hc1, if_pos hc2]
      · rw [if_neg hc1, if_neg hc2, if_neg hc1, if_neg hc2, ih]
        have h : d + depthDelta cs = d + (0 + depthDelta cs) := by ring
        rw [h, if_neg hc1, if_neg hc2]

theorem parenBalanced_imp (g : List Char) :
    ∀ d : Int, 0 ≤ d → parenBalanced d g = true →
      scanSafe (d + 1) g = true ∧ d + depthDelta g = 0 := by
  induction g with
  | nil =>
    intro d _ h
    simp only [parenBalanced, beq_iff_eq] at h
    exact ⟨rfl, by simp [depthDelta, h]⟩
  | cons c cs ih =>
    intro d hd h
    rw [parenBalanced_cons] at h
    rw [scanSafe_cons, depthDelta_cons]
    by_cases hc1 : c = '('
    · rw [if_pos hc1] at h ⊢
      rw [if_pos hc1]
      obtain ⟨h1, h2⟩ := ih (d + 1) (by omega) h
      exact ⟨h1, by omega⟩
    · by_cases hc2 : c = ')'
      · rw [if_neg hc1, if_pos hc2] at h ⊢
        rw [if_neg hc1, if_pos hc2]
        rw [Bool.and_eq_true] at h
        obtain ⟨h1, h2⟩ := h
        simp only [decide_eq_true_eq] at h1
        obtain ⟨h3, h4⟩ := ih (d - 1) (by omega) h2
        have he : d + 1 - 1 = d := by ring
        have he2 : d - 1 + 1 = d := by ring
        rw [he2] at h3
        constructor
        · rw [Bool.and_eq_true]
          refine ⟨by simp only [decide_eq_true_eq]; omega, ?_⟩
          rw [he]
          exact h3
        · omega
      · rw [if_neg hc1, if_neg hc2] at h ⊢
        rw [if_neg hc1, if_neg hc2]
        obtain ⟨h1, h2⟩ := ih d hd h
        exact ⟨h1, by omega⟩

theorem scan_through (g : List Char) :
    ∀ (d : Int) (cur : List Char) (acc : List String × List String) (rest : List Char),
      1 ≤ d → scanSafe d g = true →
      scanClassify (g ++ rest) d cur acc = scanClassify rest (d + depthDelta g) (cur ++ g) acc := by
  induction g with
  | nil =>
    intro d cur acc rest _ _
    simp [depthDelta]
  | cons c cs ih =>
    intro d cur acc rest hd hsafe
    rw [scanSafe_cons] at hsafe
    rw [List.cons_append, scanClassify_cons, depthDelta_cons]
    by_cases hc1 : c = '('
    · rw [if_pos hc1] at hsafe ⊢
      rw [if_pos hc1, if_neg (by omega : ¬(d + 1 = 1)),
        ih (d + 1) (cur ++ ['(']) acc rest (by omega) hsafe]
      have h1 : d + 1 + depthDelta cs = d + (1 + depthDelta cs) := by ring
      rw [h1]
      have h2 : (cur ++ ['(']) ++ cs = cur ++ ('(' :: cs) := by simp
      rw [h2, hc1]
    · by_cases hc2 : c = ')'
      · rw [if_neg hc1, if_pos hc2] at hsafe ⊢
        rw [if_neg hc1, if_pos hc2]
        rw [Bool.and_eq_true] at hsafe
        obtain ⟨h1, h2⟩ := hsafe
        simp only [decide_eq_true_eq] at h1
        rw [if_neg (by omega : ¬(d - 1 = 0 ∧ cur ≠ [])),
          ih (d - 1) (cur ++ [')']) acc rest (by omega) h2]
        have h3 : d - 1 + depthDelta cs = d + (-1 + depthDelta cs) := by ring
        rw [h3]
        have h4 : (cur ++ [')']) ++ cs = cur ++ (')' :: cs) := by simp
        rw [h4, hc2]
      · rw [if_neg hc1, if_neg hc2] at hsafe ⊢
        rw [if_neg hc1, if_neg hc2, if_pos (show d > 0 by omega),
          ih d (cur ++ [c]) acc rest hd hsafe]
        have h3 : d + depthDelta cs = d + (0 + depthDelta cs) := by ring
        rw [h3]
        have h4 : (cur ++ [c]) ++ cs = cur ++ (c :: cs) := by simp
        rw [h4]

theorem findAndClose_through (xs : List Char) :
    ∀ (rest : List Char) (j : Nat) (d : Int),
      1 ≤ d → scanSafe d xs = true →
      findAndClose (xs ++ rest) j d = findAndClose rest (j + xs.length) (d + depthDelta xs) := by
  induction xs with
  | nil =>
    intro rest j d _ _
    simp [depthDelta]
  | cons c cs ih =>
    intro rest j d hd hsafe
    rw [scanSafe_cons] at hsafe
    rw [List.cons_append, findAndClose_cons, depthDelta_cons, List.length_cons]
    by_cases hc1 : c = '('
    · rw [if_pos hc1] at hsafe ⊢
      rw [if_pos hc1, ih rest (j + 1) (d + 1) (by omega) hsafe]
      have h1 : d + 1 + depthDelta cs = d + (1 + depthDelta cs) := by ring
      have h2 : j + 1 + cs.length = j + (cs.length + 1) := by omega
      rw [h1, h2]
    · by_cases hc2 : c = ')'
      · rw [if_neg hc1, if_pos hc2] at hsafe ⊢
        rw [if_neg hc1, if_pos hc2]
        rw [Bool.and_eq_true] at hsafe
        obtain ⟨h1, h2⟩ := hsafe
        simp only [decide_eq_true_eq] at h1
        rw [if_neg (by omega : ¬(d - 1 = 0)), ih rest (j + 1) (d - 1) (by omega) h2]
        have h3 : d - 1 + depthDelta cs = d + (-1 + depthDelta cs) := by ring
        have h4 : j + 1 + cs.length = j + (cs.length + 1) := by omega
        rw [h3, h4]
      · rw [if_neg hc1, if_neg hc2] at hsafe ⊢
        rw [if_neg hc1, if_neg hc2, ih rest (j + 1) d hd hsafe]
        have h3 : d + depthDelta cs = d + (0 + depthDelta cs) := by ring
        have h4 : j + 1 + cs.length = j + (cs.length + 1) := by omega
        rw [h3, h4]

theorem renderGroups_shape (g : List Char) :
    ∀ gs : List (List Char), ∃ mid : List Char,
      renderGroupsChars (g :: gs) = '(' :: (mid ++ [')']) := by
  intro gs
  induction gs generalizing g with
  | nil => exact ⟨g, rfl⟩
  | cons g' gs' ih =>
    obtain ⟨mid', hmid⟩ := ih g'
    refine ⟨g ++ (')' :: ' ' :: '(' :: mid'), ?_⟩
    show '(' :: (g ++ (')' :: ' ' :: renderGroupsChars (g' :: gs')))
      = '(' :: ((g ++ (')' :: ' ' :: '(' :: mid')) ++ [')'])
    rw [hmid]
    simp

theorem pyStripChars_nil : pyStripChars [] = [] := rfl

theorem pyStripChars_wrap (xs : List Char) :
    pyStripChars ('(' :: (xs ++ [')'])) = '(' :: (xs ++ [')']) := by
  unfold pyStripChars
  rw [List.dropWhile_cons_of_neg (by decide)]
  have h1 : ('(' :: (xs ++ [')'])).reverse = ')' :: (xs.reverse ++ ['(']) := by
    simp
  rw [h1, List.dropWhile_cons_of_neg (by decide), ← h1, List.reverse_reverse]

theorem renderGroups_safe (gs : List (List Char)) :
    (∀ g ∈ gs, parenBalanced 0 g = true) →
    scanSafe 1 (renderGroupsChars gs) = true ∧ depthDelta (renderGroupsChars gs) = 0 := by
  induction gs with
  | nil => intro _; exact ⟨rfl, rfl⟩
  | cons g gs' ih =>
    intro hb
    have hg := hb g (List.mem_cons_self g gs')
    obtain ⟨hsafe1, hdelta⟩ := parenBalanced_imp g 0 le_rfl hg
    have hsafe2 : scanSafe 2 g = true := scanSafe_mono g 1 2 (by omega) hsafe1
    simp only [zero_add] at hdelta
    cases gs' with
    | nil =>
      constructor
      · show scanSafe 1 ('(' :: (g ++ [')'])) = true
        rw [scanSafe_cons, if_pos rfl, scanSafe_append,
          show (1 : Int) + 1 = 2 by norm_num, hsafe2, hdelta]
        rfl
      · show depthDelta ('(' :: (g ++ [')'])) = 0
        rw [depthDelta_cons, if_pos rfl, depthDelta_append, hdelta]
        rfl
    | cons g'' gs'' =>
      obtain ⟨ihsafe, ihdelta⟩ := ih (fun x hx => hb x (List.mem_cons_of_mem g hx))
      constructor
      · show scanSafe 1 ('(' :: (g ++ (')' :: ' ' :: renderGroupsChars (g'' :: gs'')))) = true
        rw [scanSafe_cons, if_pos rfl, scanSafe_append,
          show (1 : Int) + 1 = 2 by norm_num, hsafe2, hdelta,
          show (2 : Int) + 0 = 2 by norm_num, Bool.true_and,
          scanSafe_cons, if_neg (by decide), if_pos rfl,
          show (2 : Int) - 1 = 1 by norm_num,
          scanSafe_cons, if_neg (by decide), if_neg (by decide), ihsafe]
        rfl
      · show depthDelta ('(' :: (g ++ (')' :: ' ' :: renderGroupsChars (g'' :: gs'')))) = 0
        rw [depthDelta_cons, if_pos rfl, depthDelta_append, hdelta,
          depthDelta_cons, if_neg (by decide), if_pos rfl,
          depthDelta_cons, if_neg (by decide), if_neg (by decide), ihdelta]
        ring

theorem scan_render (gs : List (List Char)) :
    ∀ acc : List String × List String,
      (∀ g ∈ gs, g ≠ [] ∧ parenBalanced 0 g = true) →
      scanClassify (renderGroupsChars gs) 0 [] acc
        = gs.foldl (fun acc g => classifyGroup ⟨pyStripChars g⟩ acc) acc := by
  induction gs with
  | nil => intro acc _; rfl
  | cons g gs' ih =>
    intro acc hgs
    obtain ⟨hne, hbal⟩ := hgs g (List.mem_cons_self g gs')
    obtain ⟨hsafe1, hdelta⟩ := parenBalanced_imp g 0 le_rfl hbal
    rw [show (0 : Int) + 1 = 1 by norm_num] at hsafe1
    rw [zero_add] at hdelta
    cases gs' with
    | nil =>
      show scanClassify ('(' :: (g ++ [')'])) 0 [] acc = _
      rw [scanClassify_cons, if_pos rfl, if_pos (by norm_num : (0 : Int) + 1 = 1),
        show (0 : Int) + 1 = 1 by norm_num,
        scan_through g 1 [] acc [')'] (by norm_num) hsafe1, hdelta,
        show (1 : Int) + 0 = 1 by norm_num, List.nil_append,
        scanClassify_cons, if_neg (by decide), if_pos rfl,
        if_pos (⟨by norm_num, hne⟩ : (1 : Int) - 1 = 0 ∧ g ≠ [])]
      rfl
    | cons g'' gs'' =>
      show scanClassify ('(' :: (g ++ (')' :: ' ' :: renderGroupsChars (g'' :: gs'')))) 0 [] acc
        = _
      rw [scanClassify_cons, if_pos rfl, if_pos (by norm_num : (0 : Int) + 1 = 1),
        show (0 : Int) + 1 = 1 by norm_num,
        scan_through g 1 [] acc (')' :: ' ' :: renderGroupsChars (g'' :: gs''))
          (by norm_num) hsafe1,
        hdelta, show (1 : Int) + 0 = 1 by norm_num, List.nil_append,
        scanClassify_cons, if_neg (by decide), if_pos rfl,
        if_pos (⟨by norm_num, hne⟩ : (1 : Int) - 1 = 0 ∧ g ≠ []),
        show (1 : Int) - 1 = 0 by norm_num,
        scanClassify_cons, if_neg (by decide), if_neg (by decide),
        if_neg (by norm_num : ¬((0 : Int) > 0)),
        ih (classifyGroup ⟨pyStripChars g⟩ acc)
          (fun x hx => hgs x (List.mem_cons_of_mem g hx))]
      rfl

theorem classify_foldl (gs : List (List Char)) :
    ∀ acc : List String × List String,
      gs.foldl (fun acc g => classifyGroup ⟨pyStripChars g⟩ acc) acc
        = (acc.1 ++ ((gs.map (fun g => (⟨pyStripChars g⟩ : String))).filter
              (fun p => !(['n', 'o', 't'].isPrefixOf p.data))),
           acc.2 ++ ((gs.map (fun g => (⟨pyStripChars g⟩ : String))).filterMap
              (fun p => if ['n', 'o', 't'].isPrefixOf p.data then
                  (notSearch p.data).map (fun seg => (⟨pyStripChars seg⟩ : String))
                else none))) := by
  induction gs with
  | nil => intro acc; simp
  | cons g gs' ih =>
    intro acc
    rw [List.foldl_cons, ih]
    simp only [List.map_cons, List.filter_cons, List.filterMap_cons]
    by_cases hpre : ['n', 'o', 't'].isPrefixOf (⟨pyStripChars g⟩ : String).data
    · cases hns : notSearch (⟨pyStripChars g⟩ : String).data with
      | some seg =>
        simp only [classifyGroup, hpre, if_true, hns, Bool.not_true, Option.map_some]
        simp [List.append_assoc]
      | none =>
        simp only [classifyGroup, hpre, if_true, hns, Bool.not_true, Option.map_none]
        simp
    · simp only [classifyGroup, hpre, if_false, Bool.not_false,
        Bool.false_eq_true, not_false_eq_true]
      simp [hpre, List.append_assoc]

theorem pyStrip_renderGroups (gs : List (List Char)) :
    pyStripChars (renderGroupsChars gs) = renderGroupsChars gs := by
  cases gs with
  | nil => rfl
  | cons g gs' =>
    obtain ⟨mid, hmid⟩ := renderGroups_shape g gs'
    rw [hmid]
    exact pyStripChars_wrap _

theorem pyStrip_renderAnd (gs : List (List Char)) :
    pyStripChars (renderAndChars gs) = renderAndChars gs := by
  have hshape : renderAndChars gs
      = '(' :: ((['a', 'n', 'd', ' '] ++ renderGroupsChars gs) ++ [')']) := by
    simp [renderAndChars]
  rw [hshape]
  exact pyStripChars_wrap _

theorem takeWhile_body (gs : List (List Char)) :
    (renderGroupsChars gs ++ [')']).takeWhile isPySpace = [] := by
  cases gs with
  | nil => rfl
  | cons g gs' =>
    obtain ⟨mid, hmid⟩ := renderGroups_shape g gs'
    rw [hmid]
    rfl

theorem findAndClose_renderAnd (gs : List (List Char))
    (hgs : ∀ g ∈ gs, parenBalanced 0 g = true) :
    findAndClose (renderAndChars gs) 0 0 = some (5 + (renderGroupsChars gs).length) := by
  obtain ⟨hsafe, hdelta⟩ := renderGroups_safe gs hgs
  show findAndClose ('(' :: 'a' :: 'n' :: 'd' :: ' ' :: (renderGroupsChars gs ++ [')'])) 0 0 = _
  rw [findAndClose_cons, if_pos rfl]
  rw [findAndClose_cons, if_neg (by decide), if_neg (by decide)]
  rw [findAndClose_cons, if_neg (by decide), if_neg (by decide)]
  rw [findAndClose_cons, if_neg (by decide), if_neg (by decide)]
  rw [findAndClose_cons, if_neg (by decide), if_neg (by decide)]
  show findAndClose (renderGroupsChars gs ++ [')']) 5 1 = _
  rw [findAndClose_through (renderGroupsChars gs) [')'] 5 1 (by norm_num) hsafe, hdelta]
  show findAndClose [')'] (5 + (renderGroupsChars gs).length) 1 = _
  rw [findAndClose_cons, if_neg (by decide), if_pos rfl,
    if_pos (by norm_num : (1 : Int) - 1 = 0)]

theorem stripAndWrapper_renderAnd (gs : List (List Char))
    (hgs : ∀ g ∈ gs, parenBalanced 0 g = true) :
    stripAndWrapper (renderAndChars gs) = renderGroupsChars gs := by
  unfold stripAndWrapper
  rw [if_pos (show (['(', 'a', 'n', 'd'].isPrefixOf (renderAndChars gs)) = true from rfl)]
  rw [findAndClose_renderAnd gs hgs]
  show pyStripChars (((renderAndChars gs).take (5 + (renderGroupsChars gs).length)).drop
    (4 + (((renderAndChars gs).drop 4).takeWhile isPySpace).length)) = _
  rw [show ((renderAndChars gs).drop 4) = ' ' :: (renderGroupsChars gs ++ [')']) from rfl]
  rw [List.takeWhile_cons_of_pos (by decide), takeWhile_body]
  have hassoc : renderAndChars gs
      = (['(', 'a', 'n', 'd', ' '] ++ renderGroupsChars gs) ++ [')'] := by
    simp [renderAndChars]
  have hlen : 5 + (renderGroupsChars gs).length
      = (['(', 'a', 'n', 'd', ' '] ++ renderGroupsChars gs).length := by
    simp
    omega
  rw [hassoc, hlen, List.take_left]
  rw [show (4 + ([' '] : List Char).length)
      = (['(', 'a', 'n', 'd', ' '] : List Char).length from rfl]
  rw [List.drop_left]
  exact pyStrip_renderGroups gs

theorem stripAndWrapper_renderGroups (gs : List (List Char))
    (hnp : ¬ (['(', 'a', 'n', 'd'].isPrefixOf (renderGroupsChars gs) = true)) :
    stripAndWrapper (renderGroupsChars gs) = renderGroupsChars gs := by
  unfold stripAndWrapper
  rw [if_neg hnp]

theorem c6_not_literal_dropped_counterexample :
    parse_condition "(not x)" = { positive := [], negative := [] }
      ∧ parse_effect "(not x)" = { add := [], delete := [] }
      ∧ parse_condition "(and (not x) (p))" = { positive := ["p"], negative := [] } := by
  refine ⟨?_, ?_, ?_⟩ <;> rfl

/-- C6 (amended): for every well-formed list of depth-one literal groups
(each nonempty with balanced parentheses), the parser strips the top-level
`(and ...)` wrapper and splits at nesting depth exactly one; a group whose
stripped text begins with `not` contributes, to the negative (or delete) list,
the stripped text captured by the regex `not\s*\(\s*([^)]+)\)` when that regex
matches somewhere in the group, and is silently dropped from both lists when
the regex does not match (e.g. `not x` with no parenthesised body); every
other group is placed verbatim (stripped) in the positive (or add) list.  The
same holds without the `(and ...)` wrapper provided the text does not
accidentally start with the four characters `(and`. -/
theorem c6_condition_effect_parsing_spec (gs : List (List Char))
    (hgs : ∀ g ∈ gs, g ≠ [] ∧ parenBalanced 0 g = true) :
    (parse_condition ⟨renderAndChars gs⟩
        = { positive := (gs.map (fun g => (⟨pyStripChars g⟩ : String))).filter
              (fun p => !(['n', 'o', 't'].isPrefixOf p.data)),
            negative := (gs.map (fun g => (⟨pyStripChars g⟩ : String))).filterMap
              (fun p => if ['n', 'o', 't'].isPrefixOf p.data then
                  (notSearch p.data).map (fun seg => (⟨pyStripChars seg⟩ : String))
                else none) })
  ∧ (parse_effect ⟨renderAndChars gs⟩
        = { add := (gs.map (fun g => (⟨pyStripChars g⟩ : String))).filter
              (fun p => !(['n', 'o', 't'].isPrefixOf p.data)),
            delete := (gs.map (fun g => (⟨pyStripChars g⟩ : String))).filterMap
              (fun p => if ['n', 'o', 't'].isPrefixOf p.data then
                  (notSearch p.data).map (fun seg => (⟨pyStripChars seg⟩ : String))
                else none) })
  ∧ (¬ (['(', 'a', 'n', 'd'].isPrefixOf (renderGroupsChars gs) = true) →
      parse_condition ⟨renderGroupsChars gs⟩
        = { positive := (gs.map (fun g => (⟨pyStripChars g⟩ : String))).filter
              (fun p => !(['n', 'o', 't'].isPrefixOf p.data)),
            negative := (gs.map (fun g => (⟨pyStripChars g⟩ : String))).filterMap
              (fun p => if ['n', 'o', 't'].isPrefixOf p.data then
                  (notSearch p.data).map (fun seg => (⟨pyStripChars seg⟩ : String))
                else none) }) := by
  have hbal : ∀ g ∈ gs, parenBalanced 0 g = true := fun g hg => (hgs g hg).2
  have hscan : ∀ acc, scanClassify (renderGroupsChars gs) 0 [] acc
      = gs.foldl (fun acc g => classifyGroup ⟨pyStripChars g⟩ acc) acc :=
    fun acc => scan_render gs acc hgs
  refine ⟨?_, ?_, ?_⟩
  · show Condition.mk _ _ = _
    rw [show ((⟨renderAndChars gs⟩ : String)).data = renderAndChars gs from rfl]
    rw [pyStrip_renderAnd gs, stripAndWrapper_renderAnd gs hbal, hscan, classify_foldl]
    simp
  · show Effect.mk _ _ = _
    rw [show ((⟨renderAndChars gs⟩ : String)).data = renderAndChars gs from rfl]
    rw [pyStrip_renderAnd gs, stripAndWrapper_renderAnd gs hbal, hscan, classify_foldl]
    simp
  · intro hnp
    show Condition.mk _ _ = _
    rw [show ((⟨renderGroupsChars gs⟩ : String)).data = renderGroupsChars gs from rfl]
    rw [pyStrip_renderGroups gs, stripAndWrapper_renderGroups gs hnp, hscan, classify_foldl]
    simp

theorem c6_witness :
    parse_condition ⟨renderAndChars [['a', ' ', '?', 'x'], ['n', 'o', 't', ' ', '(', 'b', ')']]⟩
        = { positive := ["a ?x"], negative := ["b"] }
      ∧ parse_effect ⟨renderAndChars [['a', ' ', '?', 'x'], ['n', 'o', 't', ' ', '(', 'b', ')']]⟩
        = { add := ["a ?x"], delete := ["b"] } := by
  have h := c6_condition_effect_parsing_spec
    [['a', ' ', '?', 'x'], ['n', 'o', 't', ' ', '(', 'b', ')']] (by decide)
  exact ⟨h.1.trans (by decide), h.2.1.trans (by decide)⟩

theorem bfs_nil (P : PDDLParser) (v : Finset (Finset String)) :
    bfs P [] v = (false, noSolutionMsg) := by
  rw [bfs]

theorem bfs_cons (P : PDDLParser) (current : Finset String) (depth : Nat)
    (rest : List (Finset String × Nat)) (visited : Finset (Finset String)) :
    bfs P ((current, depth) :: rest) visited
      = if visited.card > bfsMaxStates then (true, inconclusiveMsg)
        else if goalSatisfied P.goal current then (true, reachableMsg depth)
        else if bfsMaxDepth ≤ depth then bfs P rest visited
        else bfs P
          (bfsExpand P current depth (visited, rest) (get_applicable_actions P current)).2
          (bfsExpand P current depth (visited, rest) (get_applicable_actions P current)).1 := by
  rw [bfs]

theorem bfsExpand_queue_extends (P : PDDLParser) (current : Finset String) (depth : Nat)
    (acts : List ApplicableAction) :
    ∀ (vq : Finset (Finset String) × List (Finset String × Nat))
      (e : Finset String × Nat), e ∈ vq.2 → e ∈ (bfsExpand P current depth vq acts).2 := by
  induction acts with
  | nil => intro vq e he; exact he
  | cons a as ih =>
    intro vq e he
    refine ih (bfsStep P current depth vq a) e ?_
    unfold bfsStep
    cases P.getAction a.action with
    | none => exact he
    | some action_def =>
      simp only
      split
      · exact he
      · exact List.mem_append_left _ he

theorem bfs_false_msg (P : PDDLParser) :
    ∀ (q : List (Finset String × Nat)) (v : Finset (Finset String)),
      (bfs P q v).1 = false → (bfs P q v).2 = noSolutionMsg := by
  intro q v
  induction q, v using bfs.induct P with
  | case1 v => intro _; rw [bfs_nil]
  | case2 current depth rest visited h =>
    intro hf
    rw [bfs_cons, if_pos h] at hf
    simp at hf
  | case3 current depth rest visited h1 h2 =>
    intro hf
    rw [bfs_cons, if_neg h1, if_pos h2] at hf
    simp at hf
  | case4 current depth rest visited h1 h2 h3 ih =>
    intro hf
    rw [bfs_cons, if_neg h1, if_neg h2, if_pos h3] at hf ⊢
    exact ih hf
  | case5 current depth rest visited h1 h2 h3 ih =>
    intro hf
    rw [bfs_cons, if_neg h1, if_neg h2, if_neg h3] at hf ⊢
    exact ih hf

theorem bfs_false_no_goal_in_queue (P : PDDLParser) :
    ∀ (q : List (Finset String × Nat)) (v : Finset (Finset String)),
      (bfs P q v).1 = false →
      ∀ (s : Finset String) (d : Nat), (s, d) ∈ q → goalSatisfied P.goal s = false := by
  intro q v
  induction q, v using bfs.induct P with
  | case1 v =>
    intro _ s d hmem
    exact absurd hmem (List.not_mem_nil _)
  | case2 current depth rest visited h =>
    intro hf
    rw [bfs_cons, if_pos h] at hf
    simp at hf
  | case3 current depth rest visited h1 h2 =>
    intro hf
    rw [bfs_cons, if_neg h1, if_pos h2] at hf
    simp at hf
  | case4 current depth rest visited h1 h2 h3 ih =>
    intro hf s d hmem
    rw [bfs_cons, if_neg h1, if_neg h2, if_pos h3] at hf
    rcases List.mem_cons.1 hmem with heq | hrest
    · obtain ⟨hs, _⟩ := Prod.mk.injEq .. ▸ heq
      injection heq with hs _
      rw [hs]
      exact Bool.not_eq_true _ ▸ (by simpa using h2)
    · exact ih hf s d hrest
  | case5 current depth rest visited h1 h2 h3 ih =>
    intro hf s d hmem
    rw [bfs_cons, if_neg h1, if_neg h2, if_neg h3] at hf
    rcases List.mem_cons.1 hmem with heq | hrest
    · injection heq with hs _
      rw [hs]
      simpa using h2
    · refine ih hf s d ?_
      exact bfsExpand_queue_extends P current depth (get_applicable_actions P current)
        (visited, rest) (s, d) hrest

/-- C2: the reachability checker reports `reachable = false` only when the BFS
queue empties without ever dequeuing a goal-satisfying state (every such
result carries the no-solution message, and no state ever present in the
queue satisfies the goal); whenever the explored-state count exceeds the
`maxExploredStates` cap (10000) with the queue nonempty, it instead returns
`true` with the inconclusive "assuming valid" message — exhausting the search
bounds is never reported as unreachable. -/
theorem c2_reachability_false_only_on_exhaustion (P : PDDLParser) :
    ((check_reachability_internal P).1 = false →
      (check_reachability_internal P).2 = noSolutionMsg)
  ∧ (∀ (queue : List (Finset String × Nat)) (visited : Finset (Finset String)),
      queue ≠ [] → visited.card > bfsMaxStates →
      bfs P queue visited = (true, inconclusiveMsg))
  ∧ (∀ (queue : List (Finset String × Nat)) (visited : Finset (Finset String))
      (s : Finset String) (d : Nat),
      (bfs P queue visited).1 = false → (s, d) ∈ queue →
      goalSatisfied P.goal s = false) := by
  refine ⟨?_, ?_, ?_⟩
  · intro hf
    exact bfs_false_msg P [(P.initial_state, 0)] {P.initial_state} hf
  · intro queue visited hne hcard
    cases queue with
    | nil => exact absurd rfl hne
    | cons e rest =>
      obtain ⟨s, d⟩ := e
      rw [bfs_cons, if_pos hcard]
  · intro queue visited s d hf hmem
    exact bfs_false_no_goal_in_queue P queue visited hf s d hmem

theorem c2_witness :
    (check_reachability_internal exParserEmpty).2 = noSolutionMsg
      ∧ bfs exParserEmpty [((∅ : Finset String), 0)]
          ((Finset.range 10001).image (fun n => ({(⟨List.replicate n 'a'⟩ : String)} : Finset String)))
        = (true, inconclusiveMsg)
      ∧ goalSatisfied exParserEmpty.goal ∅ = false := by
  have heval : check_reachability_internal exParserEmpty = (false, noSolutionMsg) := by
    rw [check_reachability_internal,
      show exParserEmpty.initial_state = (∅ : Finset String) from rfl, bfs_cons,
      if_neg (by decide), if_neg (by decide), if_neg (by decide),
      show get_applicable_actions exParserEmpty ∅ = [] from rfl]
    exact bfs_nil _ _
  have hinj : Function.Injective
      (fun n : ℕ => ({(⟨List.replicate n 'a'⟩ : String)} : Finset String)) := by
    intro a b h
    simp only [Finset.singleton_inj] at h
    have := congrArg List.length (congrArg String.data h)
    simpa using this
  have hcard : ((Finset.range 10001).image
      (fun n => ({(⟨List.replicate n 'a'⟩ : String)} : Finset String))).card = 10001 := by
    rw [Finset.card_image_of_injective _ hinj, Finset.card_range]
  refine ⟨(c2_reachability_false_only_on_exhaustion exParserEmpty).1 (by rw [heval]),
    (c2_reachability_false_only_on_exhaustion exParserEmpty).2.1 _ _ (by simp)
      (by rw [hcard]; norm_num [bfsMaxStates]),
    (c2_reachability_false_only_on_exhaustion exParserEmpty).2.2
      [((∅ : Finset String), 0)] {(∅ : Finset String)} ∅ 0
      (by rw [show bfs exParserEmpty [((∅ : Finset String), 0)] {(∅ : Finset String)}
          = check_reachability_internal exParserEmpty from rfl, heval]) (by simp)⟩

theorem bfsStep_visited_sub (P : PDDLParser) (current : Finset String) (depth : Nat)
    (vq : Finset (Finset String) × List (Finset String × Nat)) (act : ApplicableAction) :
    vq.1 ⊆ (bfsStep P current depth vq act).1 := by
  unfold bfsStep
  cases P.getAction act.action with
  | none => exact Finset.Subset.refl _
  | some action_def =>
    simp only
    split
    · exact Finset.Subset.refl _
    · exact Finset.subset_insert _ _

theorem bfsExpand_visited_sub (P : PDDLParser) (current : Finset String) (depth : Nat)
    (acts : List ApplicableAction) :
    ∀ vq, vq.1 ⊆ (bfsExpand P current depth vq acts).1 := by
  induction acts with
  | nil => intro vq; exact Finset.Subset.refl _
  | cons a as ih =>
    intro vq
    exact (bfsStep_visited_sub P current depth vq a).trans (ih _)

theorem bfsExpand_delta (P : PDDLParser) (current : Finset String) (depth : Nat)
    (acts : List ApplicableAction) :
    ∀ vq, ∃ Δ : List (Finset String × Nat),
      (bfsExpand P current depth vq acts).2 = vq.2 ++ Δ
      ∧ (∀ e ∈ Δ, e.2 = depth + 1)
      ∧ (∀ s, s ∈ (bfsExpand P current depth vq acts).1 →
          s ∈ vq.1 ∨ (s, depth + 1) ∈ Δ) := by
  induction acts with
  | nil =>
    intro vq
    exact ⟨[], by simp [bfsExpand], by simp, fun s hs => Or.inl hs⟩
  | cons a as ih =>
    intro vq
    have hfold : bfsExpand P current depth vq (a :: as)
        = bfsExpand P current depth (bfsStep P current depth vq a) as := rfl
    cases hga : P.getAction a.action with
    | none =>
      have hstep : bfsStep P current depth vq a = vq := by
        unfold bfsStep
        rw [hga]
      obtain ⟨Δ, h1, h2, h3⟩ := ih vq
      rw [hfold, hstep]
      exact ⟨Δ, h1, h2, h3⟩
    | some adef =>
      by_cases hmem : simulate_action_effect adef a.bindings current ∈ vq.1
      · have hstep : bfsStep P current depth vq a = vq := by
          unfold bfsStep
          rw [hga]
          simp only
          rw [if_pos hmem]
        obtain ⟨Δ, h1, h2, h3⟩ := ih vq
        rw [hfold, hstep]
        exact ⟨Δ, h1, h2, h3⟩
      · have hstep : bfsStep P current depth vq a
            = (insert (simulate_action_effect adef a.bindings current) vq.1,
               vq.2 ++ [(simulate_action_effect adef a.bindings current, depth + 1)]) := by
          unfold bfsStep
          rw [hga]
          simp only
          rw [if_neg hmem]
        obtain ⟨Δ, h1, h2, h3⟩ := ih (bfsStep P current depth vq a)
        refine ⟨(simulate_action_effect adef a.bindings current, depth + 1) :: Δ, ?_, ?_, ?_⟩
        · rw [hfold, h1, hstep]
          simp
        · intro e he
          rcases List.mem_cons.1 he with rfl | htail
          · rfl
          · exact h2 e htail
        · intro s hs
          rw [hfold] at hs
          rcases h3 s hs with hv | hd
          · rw [hstep] at hv
            rcases Finset.mem_insert.1 hv with rfl | hv'
            · exact Or.inr (List.mem_cons_self _ _)
            · exact Or.inl hv'
          · exact Or.inr (List.mem_cons_of_mem _ hd)

theorem bfsExpand_mem_succ (P : PDDLParser) (current : Finset String) (depth : Nat)
    (acts : List ApplicableAction) :
    ∀ vq (act : ApplicableAction) (adef : ActionDef), act ∈ acts →
      P.getAction act.action = some adef →
      simulate_action_effect adef act.bindings current
        ∈ (bfsExpand P current depth vq acts).1 := by
  induction acts with
  | nil =>
    intro vq act adef h _
    exact absurd h (List.not_mem_nil _)
  | cons a as ih =>
    intro vq act adef hmem hlook
    rcases List.mem_cons.1 hmem with rfl | htail
    · have hnext : simulate_action_effect adef act.bindings current
          ∈ (bfsStep P current depth vq act).1 := by
        unfold bfsStep
        rw [hlook]
        simp only
        split
        · next h => exact h
        · exact Finset.mem_insert_self _ _
      exact bfsExpand_visited_sub P current depth as (bfsStep P current depth vq act) hnext
    · exact ih (bfsStep P current depth vq a) act adef htail hlook

theorem sstep_applicable (P : PDDLParser) (s s' : Finset String) (h : SStep P s s') :
    ∃ act ∈ get_applicable_actions P s, ∃ adef : ActionDef,
      P.getAction act.action = some adef ∧ simulate_action_effect adef act.bindings s = s' := by
  obtain ⟨name, adef, b, hlook, hgen, hpre, rfl⟩ := h
  have hfind : ∃ pair, P.actions.find? (fun na => na.1 = name) = some pair ∧ pair.2 = adef := by
    unfold PDDLParser.getAction at hlook
    cases hf : P.actions.find? (fun na => na.1 = name) with
    | none =>
      rw [hf] at hlook
      simp at hlook
    | some pair =>
      rw [hf] at hlook
      simp at hlook
      exact ⟨pair, rfl, hlook⟩
  obtain ⟨pair, hf, hp2⟩ := hfind
  have hpmem : pair ∈ P.actions := List.mem_of_find?_eq_some hf
  have hpname : pair.1 = name := by
    have := List.find?_some hf
    simpa using this
  refine ⟨{ action := pair.1, bindings := b,
            description := format_action_description pair.1 b }, ?_, adef, ?_, rfl⟩
  · unfold get_applicable_actions
    rw [List.mem_flatMap]
    refine ⟨pair, hpmem, ?_⟩
    rw [List.mem_map]
    refine ⟨b, ?_, rfl⟩
    rw [List.mem_filter]
    rw [hp2]
    exact ⟨hgen, hpre⟩
  · show P.getAction pair.1 = some adef
    rw [hpname]
    exact hlook

theorem sstep_expand_mem (P : PDDLParser) (s s' : Finset String) (hstep : SStep P s s')
    (depth : Nat) (vq : Finset (Finset String) × List (Finset String × Nat)) :
    s' ∈ (bfsExpand P s depth vq (get_applicable_actions P s)).1 := by
  obtain ⟨act, hact, adef, hlook, hsim⟩ := sstep_applicable P s s' hstep
  have h := bfsExpand_mem_succ P s depth (get_applicable_actions P s) vq act adef hact hlook
  rw [hsim] at h
  exact h

theorem sorted_head_min (current : Finset String) (depth : Nat)
    (rest : List (Finset String × Nat))
    (hsort : (((current, depth) :: rest).map Prod.snd).Sorted (· ≤ ·)) :
    ∀ e ∈ rest, depth ≤ e.2 := by
  intro e he
  rw [List.map_cons, List.sorted_cons] at hsort
  exact hsort.1 e.2 (List.mem_map_of_mem Prod.snd he)

theorem bfs_complete_aux (P : PDDLParser) (σ : ℕ → Finset String) (k : ℕ)
    (hstep : ∀ l, l < k → SStep P (σ l) (σ (l + 1)))
    (hgoal : goalSatisfied P.goal (σ k) = true)
    (hk : k ≤ bfsMaxDepth) :
    ∀ (q : List (Finset String × Nat)) (v : Finset (Finset String)),
      (q.map Prod.snd).Sorted (· ≤ ·) →
      (∀ a ∈ q, ∀ b ∈ q, a.2 ≤ b.2 + 1) →
      (∃ i, i ≤ k ∧ ∃ d, d ≤ i ∧ (σ i, d) ∈ q ∧ (∀ l, i < l → l ≤ k → σ l ∉ v)) →
      bfs P q v = (true, inconclusiveMsg)
        ∨ ∃ e, e ≤ k ∧ bfs P q v = (true, reachableMsg e) := by
  intro q v
  induction q, v using bfs.induct P with
  | case1 v =>
    intro _ _ hwit
    obtain ⟨i, _, d, _, hmem, _⟩ := hwit
    exact absurd hmem (List.not_mem_nil _)
  | case2 current depth rest visited h =>
    intro _ _ _
    left
    rw [bfs_cons, if_pos h]
  | case3 current depth rest visited h1 h2 =>
    intro hsort _ hwit
    right
    obtain ⟨i, hik, d, hdi, hmem, _⟩ := hwit
    have hde : depth ≤ d := by
      rcases List.mem_cons.1 hmem with heq | hrest
      · injection heq with _ hd2
        omega
      · exact sorted_head_min current depth rest hsort _ hrest
    exact ⟨depth, by omega, by rw [bfs_cons, if_neg h1, if_pos h2]⟩
  | case4 current depth rest visited h1 h2 h3 ih =>
    intro hsort htwo hwit
    rw [bfs_cons, if_neg h1, if_neg h2, if_pos h3]
    obtain ⟨i, hik, d, hdi, hmem, hfresh⟩ := hwit
    have hrest : (σ i, d) ∈ rest := by
      rcases List.mem_cons.1 hmem with heq | hr
      · exfalso
        injection heq with hs hd2
        have hikk : i = k := by
          have hb : bfsMaxDepth ≤ depth := h3
          omega
        have hgc : goalSatisfied P.goal current = true := by
          rw [← hs, hikk]
          exact hgoal
        exact h2 hgc
      · exact hr
    refine ih ?_ ?_ ⟨i, hik, d, hdi, hrest, hfresh⟩
    · rw [List.map_cons, List.sorted_cons] at hsort
      exact hsort.2
    · intro a ha b hb
      exact htwo a (List.mem_cons_of_mem _ ha) b (List.mem_cons_of_mem _ hb)
  | case5 current depth rest visited h1 h2 h3 ih =>
    intro hsort htwo hwit
    rw [bfs_cons, if_neg h1, if_neg h2, if_neg h3]
    obtain ⟨i, hik, d, hdi, hmem, hfresh⟩ := hwit
    obtain ⟨Δ, hdq, hdd, hdv⟩ :=
      bfsExpand_delta P current depth (get_applicable_actions P current) (visited, rest)
    set E := bfsExpand P current depth (visited, rest) (get_applicable_actions P current)
      with hE
    have hdepth_le_d : depth ≤ d := by
      rcases List.mem_cons.1 hmem with heq | hr
      · injection heq with _ hd2
        omega
      · exact sorted_head_min current depth rest hsort _ hr
    have hsorted' : (E.2.map Prod.snd).Sorted (· ≤ ·) := by
      rw [hdq, List.map_append]
      rw [List.Sorted, List.pairwise_append]
      refine ⟨?_, ?_, ?_⟩
      · rw [List.map_cons, List.sorted_cons] at hsort
        exact hsort.2
      · refine List.pairwise_of_forall_mem_list ?_
        intro x hx y hy
        rw [List.mem_map] at hx hy
        obtain ⟨e1, he1, rfl⟩ := hx
        obtain ⟨e2, he2, rfl⟩ := hy
        rw [hdd e1 he1, hdd e2 he2]
      · intro x hx y hy
        rw [List.mem_map] at hx hy
        obtain ⟨e1, he1, rfl⟩ := hx
        obtain ⟨e2, he2, rfl⟩ := hy
        rw [hdd e2 he2]
        have := htwo e1 (List.mem_cons_of_mem _ he1) (current, depth)
          (List.mem_cons_self _ _)
        omega
    have htwo' : ∀ a ∈ E.2, ∀ b ∈ E.2, a.2 ≤ b.2 + 1 := by
      intro a ha b hb
      rw [hdq] at ha hb
      rcases List.mem_append.1 ha with ha' | ha' <;> rcases List.mem_append.1 hb with hb' | hb'
      · exact htwo a (List.mem_cons_of_mem _ ha') b (List.mem_cons_of_mem _ hb')
      · rw [hdd b hb']
        have := htwo a (List.mem_cons_of_mem _ ha') (current, depth)
          (List.mem_cons_self _ _)
        omega
      · rw [hdd a ha']
        have := sorted_head_min current depth rest hsort b hb'
        omega
      · rw [hdd a ha', hdd b hb']
        omega
    by_cases hJ : ∃ l, i < l ∧ l ≤ k ∧ σ l ∈ E.1
    · obtain ⟨l0, hl0i, hl0k, hl0v⟩ := hJ
      have hspec := Nat.findGreatest_spec (P := fun l => i < l ∧ σ l ∈ E.1) hl0k ⟨hl0i, hl0v⟩
      set j := Nat.findGreatest (fun l => i < l ∧ σ l ∈ E.1) k with hj
      have hjk : j ≤ k := Nat.findGreatest_le k
      obtain ⟨hij, hjv⟩ := hspec
      have hjq : (σ j, depth + 1) ∈ E.2 := by
        have hnotv : σ j ∉ visited := hfresh j hij hjk
        rcases hdv (σ j) hjv with hv | hd
        · exact absurd hv hnotv
        · rw [hdq]
          exact List.mem_append_right _ hd
      refine ih hsorted' htwo' ⟨j, hjk, depth + 1, by omega, hjq, ?_⟩
      intro l hjl hlk hlv
      exact Nat.findGreatest_is_greatest (hj ▸ hjl) hlk ⟨by omega, hlv⟩
    · push_neg at hJ
      rcases List.mem_cons.1 hmem with heq | hr
      · exfalso
        injection heq with hs hd2
        have hikk : i < k := by
          rcases Nat.lt_or_ge i k with h' | h'
          · exact h'
          · exfalso
            have hieq : i = k := by omega
            have hgc : goalSatisfied P.goal current = true := by
              rw [← hs, hieq]
              exact hgoal
            exact h2 hgc
        have hsucc : σ (i + 1) ∈ E.1 := by
          have hst := hstep i hikk
          rw [hs] at hst
          exact sstep_expand_mem P current (σ (i + 1)) hst depth (visited, rest)
        exact hJ (i + 1) (by omega) (by omega) hsucc
      · refine ih hsorted' htwo' ⟨i, hik, d, hdi, ?_, hJ⟩
        rw [hdq]
        exact List.mem_append_left _ hr

/-- C1: completeness of the reachability BFS.  (a) Whenever a sequence of
applicable ground actions (`SStep`) of length `k ≤ 50` transforms the parsed
initial fact set into a state satisfying the goal condition, and the search
does not hit its explored-state cap (its result message is not the
inconclusive one), `check_reachability_internal` returns `true` with the
message "Goal reachable in e steps" for some `e ≤ k`.  (b) In particular, if
the initial state already satisfies the goal, it reports reachability in 0
steps. -/
theorem c1_bfs_completeness :
    (∀ (P : PDDLParser) (σ : ℕ → Finset String) (k : ℕ),
      σ 0 = P.initial_state →
      (∀ l, l < k → SStep P (σ l) (σ (l + 1))) →
      goalSatisfied P.goal (σ k) = true →
      k ≤ bfsMaxDepth →
      (check_reachability_internal P).2 ≠ inconclusiveMsg →
      ∃ e, e ≤ k ∧ check_reachability_internal P = (true, reachableMsg e))
    ∧ (∀ P : PDDLParser, goalSatisfied P.goal P.initial_state = true →
      check_reachability_internal P = (true, reachableMsg 0)) := by
  constructor
  · intro P σ k hσ0 hstep hgoal hk hcap
    have hmain := bfs_complete_aux P σ k hstep hgoal hk
      [(P.initial_state, 0)] {P.initial_state} ?_ ?_ ?_
    · rcases hmain with hinc | ⟨e, hek, heq⟩
      · exfalso
        apply hcap
        rw [show check_reachability_internal P
            = bfs P [(P.initial_state, 0)] {P.initial_state} from rfl, hinc]
      · exact ⟨e, hek, by
          rw [show check_reachability_internal P
              = bfs P [(P.initial_state, 0)] {P.initial_state} from rfl, heq]⟩
    · simp
    · intro a ha b hb
      rw [List.mem_singleton] at ha hb
      rw [ha, hb]
      omega
    · refine ⟨Nat.findGreatest (fun l => σ l = P.initial_state) k,
        Nat.findGreatest_le k, 0, Nat.zero_le _, ?_, ?_⟩
      · rw [List.mem_singleton, Prod.mk.injEq]
        exact ⟨Nat.findGreatest_spec (P := fun l => σ l = P.initial_state)
          (Nat.zero_le k) hσ0, rfl⟩
      · intro l hgl hlk hlv
        rw [Finset.mem_singleton] at hlv
        exact Nat.findGreatest_is_greatest hgl hlk hlv
  · intro P hg
    rw [show check_reachability_internal P
        = bfs P [(P.initial_state, 0)] {P.initial_state} from rfl, bfs_cons]
    rw [if_neg (by simp [Finset.card_singleton, bfsMaxStates]), if_pos hg]

/-- Witness for C1: instantiated at the example parser whose goal is empty,
with the trivial zero-length plan. -/
theorem c1_witness :
    check_reachability_internal exParserTrivialGoal = (true, reachableMsg 0)
      ∧ ∃ e, e ≤ 0 ∧
        check_reachability_internal exParserTrivialGoal = (true, reachableMsg e) := by
  have h0 := c1_bfs_completeness.2 exParserTrivialGoal rfl
  refine ⟨h0, c1_bfs_completeness.1 exParserTrivialGoal (fun _ => ∅) 0 rfl
    (fun l hl => absurd hl (Nat.not_lt_zero l)) rfl (by decide) ?_⟩
  rw [h0]
  decide
